import Mathlib

/-!
Verification of the shortest-path engine described by the repository
specification.  The repository source (Chapter5.ipynb) declares `dijkstra`,
`a_star`, `reconstruct_path` and `compute_distances_to_park`; the bodies of
the relaxation loops are left as exercises, so the loop is modelled from the
specification (section 4.2) while the written parts (the return wrappers and
the emptiness guard of `reconstruct_path`) are translated directly.
-/

set_option linter.unusedSectionVars false

namespace SPVerify

variable {ν : Type} [DecidableEq ν]

/-- Association-list lookup, first match wins (a Python dict access). -/
def alookup {β : Type} (l : List (ν × β)) (k : ν) : Option β :=
  match l with
  | [] => none
  | (k2, b) :: rest => if k = k2 then some b else alookup rest k

/-- Association-list update: store the new binding and drop old ones for the key. -/
def aupdate {β : Type} (l : List (ν × β)) (k : ν) (b : β) : List (ν × β) :=
  (k, b) :: l.filter (fun p => decide (p.1 ≠ k))

/-- A weighted directed graph as an adjacency association list
(a Python dict from node to a list of (weight, target) pairs). -/
abbrev Graph (ν : Type) := List (ν × List (ℚ × ν))

/-- Outgoing edges of a node; a node absent from the mapping has none (spec section 3). -/
def neighbors (g : Graph ν) (u : ν) : List (ℚ × ν) := (alookup g u).getD []

/-- All edge weights are non-negative (required precondition, spec section 3). -/
def NonnegWeights (g : Graph ν) : Prop := ∀ u w v, (w, v) ∈ neighbors g u → 0 ≤ w

/-- A walk through the graph from a start node, listing the visited nodes after
the start and accumulating the edge weights. -/
inductive ChainL (g : Graph ν) : ν → List ν → ν → ℚ → Prop
  | nil (v : ν) : ChainL g v [] v 0
  | cons {u : ν} {w : ℚ} {v : ν} {l : List ν} {t : ν} {c : ℚ} :
      (w, v) ∈ neighbors g u → ChainL g v l t c → ChainL g u (v :: l) t (w + c)

/-- There is a walk of total weight c between the two nodes. -/
def ChainW (g : Graph ν) (x y : ν) (c : ℚ) : Prop := ∃ l, ChainL g x l y c

/-- The node is reachable from one of the seed nodes. -/
def ReachesM (g : Graph ν) (seeds : List ν) (v : ν) : Prop :=
  ∃ t ∈ seeds, ∃ c, ChainW g t v c

/-- d is the minimal walk weight from the seed set to the node. -/
def IsMinDistM (g : Graph ν) (seeds : List ν) (v : ν) (d : ℚ) : Prop :=
  (∃ t ∈ seeds, ChainW g t v d) ∧ ∀ t ∈ seeds, ∀ c, ChainW g t v c → d ≤ c

/-- Extract the minimal-priority entry from the frontier (the heapq pop).
Returns the chosen entry and the remaining entries. -/
def qpopMin : List (ℚ × ν) → Option ((ℚ × ν) × List (ℚ × ν))
  | [] => none
  | e :: es =>
    match qpopMin es with
    | none => some (e, [])
    | some (m, rest) => if e.1 ≤ m.1 then some (e, es) else some (m, e :: rest)

/-- Search state of the relaxation core (spec section 4.2): distance table,
predecessor map, lazy-deletion frontier, and the list of accepted pops
(each with the distance recorded when it was accepted). -/
structure DState (ν : Type) where
  dist : List (ν × ℚ)
  came_from : List (ν × ν)
  queue : List (ℚ × ν)
  settled : List (ν × ℚ)

/-- A single relaxation (spec glossary): record the improved distance and
predecessor and push the matching frontier entry. -/
def relaxStep (h : ν → ℚ) (u : ν) (du w : ℚ) (v : ν) (σ : DState ν) : DState ν :=
  { dist := aupdate σ.dist v (du + w)
    came_from := aupdate σ.came_from v u
    queue := (du + w + h v, v) :: σ.queue
    settled := σ.settled }

/-- Modelled from the spec: one pass over the outgoing edges of an accepted
node, relaxing each edge (spec section 4.2, RUNNING step) and pushing an
updated frontier entry on every strict improvement. -/
def relaxEdges (h : ν → ℚ) (u : ν) (du : ℚ) : List (ℚ × ν) → DState ν → DState ν
  | [], σ => σ
  | (w, v) :: es, σ =>
    relaxEdges h u du es
      (match alookup σ.dist v with
       | none => relaxStep h u du w v σ
       | some dv => if du + w < dv then relaxStep h u du w v σ else σ)

/-- Result of one iteration of the relaxation loop: either the search is over
(frontier exhausted or the sink was accepted) or the loop continues. -/
inductive StepRes (ν : Type) where
  | done (σ : DState ν)
  | next (σ : DState ν)

/-- Modelled from the spec: one iteration of the relaxation loop of `dijkstra`
and `a_star` (whose bodies are left as COMPLETE THIS in the source): pop the
minimum entry, discard it when stale, stop when the sink is accepted,
otherwise relax the outgoing edges. -/
def dstep (g : Graph ν) (h : ν → ℚ) (sk : Option ν) (σ : DState ν) : StepRes ν :=
  match qpopMin σ.queue with
  | none => .done σ
  | some ((p, u), rest) =>
    match alookup σ.dist u with
    | none => .next { σ with queue := rest }
    | some du =>
      if du + h u < p then .next { σ with queue := rest }
      else if sk = some u then
        .done { σ with queue := rest, settled := (u, du) :: σ.settled }
      else
        .next
          { relaxEdges h u du (neighbors g u) { σ with queue := rest } with
            settled :=
              (u, du) :: (relaxEdges h u du (neighbors g u)
                { σ with queue := rest }).settled }

/-- Run the relaxation loop with the given amount of fuel. -/
def dloop (g : Graph ν) (h : ν → ℚ) (sk : Option ν) : Nat → DState ν → DState ν
  | 0, σ => σ
  | fuel + 1, σ =>
    match dstep g h sk σ with
    | .done σf => σf
    | .next σ2 => dloop g h sk fuel σ2

/-- Initial state: every seed at distance 0 and on the frontier
(spec section 4.2, INITIALIZED, generalised to a seed set). -/
def initState (h : ν → ℚ) (seeds : List ν) : DState ν :=
  { dist := seeds.map (fun t => (t, 0))
    came_from := []
    queue := seeds.map (fun t => (h t, t))
    settled := [] }

/-- The state of the relaxation loop after k iterations (frozen once the
loop has finished). -/
def iterLoop (g : Graph ν) (h : ν → ℚ) (sk : Option ν) (seeds : List ν) (k : Nat) : DState ν :=
  dloop g h sk k (initState h seeds)

/-- All nodes that can ever carry a distance: the seeds, the adjacency keys
and every edge target. -/
def universeList (g : Graph ν) (seeds : List ν) : List ν :=
  (seeds ++ g.map Prod.fst ++ g.flatMap (fun p => p.2.map Prod.snd)).dedup

/-- The list of all edge weights stored in the adjacency list. -/
def weightList (g : Graph ν) : List ℚ :=
  (g.map Prod.fst).dedup.flatMap (fun u => (neighbors g u).map Prod.fst)

/-- A strict upper bound for single edge weights, used by the fuel bound. -/
def weightCap (g : Graph ν) : ℚ := 1 + (weightList g).sum

/-- Common multiple of the denominators of all edge weights. -/
def denLcm (g : Graph ν) : ℕ := (weightList g).foldl (fun a q => Nat.lcm a q.den) 1

/-- Upper bound for the integer potential of a recorded distance. -/
def capN (g : Graph ν) (seeds : List ν) : ℕ :=
  ⌈((universeList g seeds).length : ℚ) * weightCap g * (denLcm g : ℚ)⌉.toNat

/-- Integer potential of one node: large while unset, then proportional to the
recorded distance, so that every relaxation strictly decreases it. -/
def potOf (g : Graph ν) (seeds : List ν) (dist : List (ν × ℚ)) (v : ν) : ℕ :=
  match alookup dist v with
  | none => capN g seeds + 1
  | some dv => ⌊dv * (denLcm g : ℚ)⌋.toNat

/-- Termination measure of the loop: frontier size plus node potentials. -/
def measureOf (g : Graph ν) (seeds : List ν) (σ : DState ν) : ℕ :=
  σ.queue.length + 2 * ((universeList g seeds).map (potOf g seeds σ.dist)).sum

/-- Enough fuel to run any search on this graph to completion. -/
def totalFuel (g : Graph ν) (seeds : List ν) : ℕ :=
  measureOf g seeds (initState (fun _ => 0) seeds) + 1

/-- Run the relaxation loop to completion. -/
def runLoop (g : Graph ν) (h : ν → ℚ) (sk : Option ν) (seeds : List ν) : DState ν :=
  dloop g h sk (totalFuel g seeds) (initState h seeds)

/-- Modelled from the spec: the backward walk of `reconstruct_path` (its body
is left as COMPLETE THIS in the source): follow predecessor links from the
sink, prepending nodes, until the source is reached; stop with a structural
error (`none`) when the fuel bound is exceeded or a link is missing
(spec section 4.3). -/
def walkBack (cf : List (ν × ν)) (s : ν) : Nat → ν → List ν → Option (List ν)
  | 0, _, _ => none
  | fuel + 1, cur, acc =>
    if cur = s then some (s :: acc)
    else
      match alookup cf cur with
      | none => none
      | some prev => walkBack cf s fuel prev (cur :: acc)

/-- Path reconstruction.  The emptiness guard (`if sink not in came_from:
return []`) is translated from the source; the walk itself is modelled from
the spec with the defensive bound of one step per stored link. -/
def reconstruct_path (cf : List (ν × ν)) (s t : ν) : Option (List ν) :=
  if (alookup cf t).isNone then some []
  else walkBack cf s (cf.length + 1) t []

/-- Iterated predecessor lookup, used to describe cyclic predecessor maps. -/
def predChain (cf : List (ν × ν)) (t : ν) : Nat → Option ν
  | 0 => some t
  | k + 1 => (predChain cf t k).bind (alookup cf)

/-- Single-source-to-all-nodes search: `dijkstra(graph, source)` with no sink
(translated return wrapper: the pair of the distance table and the
predecessor map). -/
def dijkstra_all (g : Graph ν) (source : ν) : List (ν × ℚ) × List (ν × ν) :=
  let σ := runLoop g (fun _ => 0) none [source]
  (σ.dist, σ.came_from)

/-- Single-source-single-sink search: `dijkstra(graph, source, sink)`
(translated return wrapper: the reconstructed path and the recorded distance
of the sink, infinity when absent). -/
def dijkstra (g : Graph ν) (source sink : ν) : Option (List ν) × WithTop ℚ :=
  let σ := runLoop g (fun _ => 0) (some sink) [source]
  (reconstruct_path σ.came_from source sink,
    match alookup σ.dist sink with
    | none => ⊤
    | some d => (d : WithTop ℚ))

/-- Heuristic-guided search `a_star(graph, source, sink, heuristic)`: the same
relaxation core with priority distance + heuristic (spec section 4.2). -/
def a_star (g : Graph ν) (source sink : ν) (h : ν → ℚ) : Option (List ν) × WithTop ℚ :=
  let σ := runLoop g h (some sink) [source]
  (reconstruct_path σ.came_from source sink,
    match alookup σ.dist sink with
    | none => ⊤
    | some d => (d : WithTop ℚ))

/-- The reversal of a graph: same weights, inverted edge direction. -/
def reverseGraph (g : Graph ν) : Graph ν :=
  (universeList g []).map (fun v =>
    (v, (g.map Prod.fst).dedup.flatMap (fun u =>
      ((neighbors g u).filter (fun e => decide (e.2 = v))).map (fun e => (e.1, u)))))

/-- Modelled from the spec: `compute_distances_to_park` (its body is left as
COMPLETE THIS in the source), realised by the multi-source formulation the
spec declares admissible: seed every park vertex at distance 0 and run the
relaxation loop on the reversed graph (spec sections 4.2 and 9). -/
def compute_distances_to_park (g : Graph ν) (parks : List ν) : List (ν × ℚ) × List (ν × ν) :=
  let σ := runLoop (reverseGraph g) (fun _ => 0) none parks
  (σ.dist, σ.came_from)

/-- Lift a graph to nodes of type Option, leaving room for a virtual source. -/
def liftGraph (g : Graph ν) : Graph (Option ν) :=
  g.map (fun p => (some p.1, p.2.map (fun e => (e.1, some e.2))))

/-- A virtual source (`none`) joined to every target by a zero-weight edge
(spec section 4.2, reformulation of the multi-target variant). -/
def virtualGraph (g : Graph ν) (targets : List ν) : Graph (Option ν) :=
  (none, targets.map (fun t => ((0 : ℚ), some t))) :: liftGraph g

/-- Modelled from the spec: the virtual-source formulation of
`compute_distances_to_park` (spec sections 4.2 and 9). -/
def park_virtual (g : Graph ν) (parks : List ν) : List (Option ν × ℚ) × List (Option ν × Option ν) :=
  let σ := runLoop (virtualGraph (reverseGraph g) parks) (fun _ => 0) none [none]
  (σ.dist, σ.came_from)

/-- Follow the next-hop map for at most the given number of steps. -/
def hopEnd (paths : List (ν × ν)) : Nat → ν → ν
  | 0, v => v
  | fuel + 1, v =>
    match alookup paths v with
    | none => v
    | some u => hopEnd paths fuel u

/-- First minimum of a list of rationals. -/
def listMin : List ℚ → Option ℚ
  | [] => none
  | x :: xs =>
    match listMin xs with
    | none => some x
    | some m => if x ≤ m then some x else some m

/-- Minimal weight of a direct edge between two nodes, if any. -/
def minEdge (g : Graph ν) (a b : ν) : Option ℚ :=
  listMin (((neighbors g a).filter (fun e => decide (e.2 = b))).map Prod.fst)

/-- Total weight of a node sequence, summing for each consecutive pair the
minimal direct edge weight; `none` when some pair has no edge. -/
def pathCost (g : Graph ν) : List ν → Option ℚ
  | [] => some 0
  | [_] => some 0
  | a :: b :: rest =>
    match minEdge g a b, pathCost g (b :: rest) with
    | some w, some c => some (w + c)
    | _, _ => none

/-- The concrete 9-node graph of the spec scenario (section 8, property 6),
with nodes A..I encoded as 0..8. -/
def gC1 : Graph ℕ :=
  [(0, [(2, 1), (3, 3)]),
   (1, [(1, 2), (5, 4)]),
   (2, [(2, 3), (1, 4)]),
   (3, [(3, 4)]),
   (4, [(2, 1), (3, 5)]),
   (5, [(5, 6), (8, 8)]),
   (6, [(2, 7), (5, 8)]),
   (7, [(3, 8)]),
   (8, [])]

/-- The 5-node line graph of the spec scenario (section 8, property 7),
with nodes A..E encoded as 0..4. -/
def gLine : Graph ℕ := [(0, [(1, 1)]), (1, [(1, 2)]), (2, [(1, 3)]), (3, [(1, 4)])]


/-- The predecessor chain from the node reaches a seed. -/
inductive CfReaches (cf : List (ν × ν)) (seeds : List ν) : ν → Prop
  | base {v : ν} : v ∈ seeds → CfReaches cf seeds v
  | step {v u : ν} : alookup cf v = some u → CfReaches cf seeds u → CfReaches cf seeds v

/-- q times D is an integer. -/
def IsIntMul (D : ℕ) (q : ℚ) : Prop := ∃ z : ℤ, q * (D : ℚ) = (z : ℚ)

/-- The heuristic is admissible towards the node: non-negative there and
never above the weight of any walk into the node (spec section 4.4). -/
def GoodH (g : Graph ν) (h : ν → ℚ) (u : ν) : Prop :=
  0 ≤ h u ∧ ∀ v c, ChainW g v u c → h v ≤ c

/-- Invariants of the relaxation loop state (spec sections 3 and 4.2).
The list exn holds nodes whose frontier entry was popped but whose settling
is not recorded yet (only ever the node currently being expanded). -/
structure Inv (g : Graph ν) (h : ν → ℚ) (seeds : List ν) (sk : Option ν) (exn : List ν)
    (σ : DState ν) : Prop where
  nodupKeys : (σ.dist.map Prod.fst).Nodup
  keysU : ∀ v, (alookup σ.dist v).isSome → v ∈ universeList g seeds
  sound : ∀ v dv, alookup σ.dist v = some dv → ∃ t ∈ seeds, ChainW g t v dv
  qlb : ∀ p v, (p, v) ∈ σ.queue → ∃ dv, alookup σ.dist v = some dv ∧ dv + h v ≤ p
  seed0 : ∀ t ∈ seeds, alookup σ.dist t = some 0 ∧ alookup σ.came_from t = none
  relaxedS : ∀ u d, (u, d) ∈ σ.settled → sk ≠ some u → ∀ w v, (w, v) ∈ neighbors g u →
      ∃ dv, alookup σ.dist v = some dv ∧ dv ≤ d + w
  entryS : ∀ v dv, alookup σ.dist v = some dv →
      (dv + h v, v) ∈ σ.queue ∨ (v, dv) ∈ σ.settled ∨ v ∈ exn
  monoS : ∀ u d, (u, d) ∈ σ.settled → ∃ du, alookup σ.dist u = some du ∧ du ≤ d
  cfEdge : ∀ v u, alookup σ.came_from v = some u → ∃ w dv du,
      (w, v) ∈ neighbors g u ∧ alookup σ.dist v = some dv ∧
      alookup σ.dist u = some du ∧ du + w ≤ dv
  grounded : ∀ v, (alookup σ.dist v).isSome → CfReaches σ.came_from seeds v
  distBound : ∀ v dv, alookup σ.dist v = some dv → dv ≤ (σ.dist.length : ℚ) * weightCap g
  intMul : ∀ v dv, alookup σ.dist v = some dv → IsIntMul (denLcm g) dv

/-- Every settled entry of a node in A is a lower bound for all walk weights
from the seeds to the node (its distance was final and minimal when popped). -/
def SettledLB (g : Graph ν) (seeds : List ν) (A : ν → Prop) (σ : DState ν) : Prop :=
  ∀ v d, A v → (v, d) ∈ σ.settled → ∀ t ∈ seeds, ∀ c, ChainW g t v c → d ≤ c

/-- No accepted pop so far was the sink (true of every state while the loop
is still running). -/
def SinkFree (sk : Option ν) (σ : DState ν) : Prop :=
  ∀ y d, (y, d) ∈ σ.settled → sk ≠ some y

/-- The list of nodes visited when walking the predecessor map backward from
a node until the source is reached (the node first, the source last). -/
inductive Ccl (cf : List (ν × ν)) (s : ν) : ν → List ν → Prop
  | base : Ccl cf s s [s]
  | step {v u : ν} {l : List ν} :
      v ≠ s → alookup cf v = some u → Ccl cf s u l → Ccl cf s v (v :: l)

theorem alookup_aupdate_self {β : Type} (l : List (ν × β)) (k : ν) (b : β) :
    alookup (aupdate l k b) k = some b := by
  simp [aupdate, alookup]

theorem alookup_filter_ne {β : Type} (l : List (ν × β)) (k k2 : ν) (hne : k2 ≠ k) :
    alookup (l.filter (fun p => decide (p.1 ≠ k))) k2 = alookup l k2 := by
  induction l with
  | nil => rfl
  | cons p rest ih =>
    obtain ⟨a, b⟩ := p
    by_cases hp : a = k
    · subst hp
      have h1 : List.filter (fun p => decide (p.1 ≠ a)) ((a, b) :: rest) =
          List.filter (fun p => decide (p.1 ≠ a)) rest := by
        simp [List.filter]
      rw [h1, ih]
      simp [alookup, hne]
    · have h1 : List.filter (fun p => decide (p.1 ≠ k)) ((a, b) :: rest) =
          (a, b) :: List.filter (fun p => decide (p.1 ≠ k)) rest := by
        simp [List.filter, hp]
      rw [h1]
      simp only [alookup]
      by_cases hk : k2 = a
      · simp [hk]
      · simp only [hk, if_false]
        simpa using ih

theorem alookup_aupdate_ne {β : Type} (l : List (ν × β)) (k k2 : ν) (b : β) (hne : k2 ≠ k) :
    alookup (aupdate l k b) k2 = alookup l k2 := by
  simp only [aupdate, alookup, hne, if_false]
  exact alookup_filter_ne l k k2 hne

theorem alookup_none_iff {β : Type} (l : List (ν × β)) (k : ν) :
    alookup l k = none ↔ ∀ p ∈ l, p.1 ≠ k := by
  induction l with
  | nil => simp [alookup]
  | cons p rest ih =>
    obtain ⟨a, b⟩ := p
    by_cases hk : k = a
    · subst hk
      simp [alookup]
    · simp only [alookup, hk, if_false, ih, List.mem_cons]
      constructor
      · rintro h p (rfl | hp)
        · exact fun hc => hk hc.symm
        · exact h p hp
      · intro h p hp
        exact h p (Or.inr hp)

theorem aupdate_keys_nodup {β : Type} (l : List (ν × β)) (k : ν) (b : β)
    (h : (l.map Prod.fst).Nodup) : ((aupdate l k b).map Prod.fst).Nodup := by
  simp only [aupdate, List.map_cons, List.nodup_cons]
  constructor
  · intro hmem
    simp only [List.mem_map, List.mem_filter] at hmem
    obtain ⟨p, ⟨_, hp⟩, hk⟩ := hmem
    rw [hk] at hp
    simp at hp
  · have hsub : (l.filter (fun p => decide (p.1 ≠ k))).map Prod.fst |>.Sublist (l.map Prod.fst) :=
      (List.filter_sublist l).map Prod.fst
    exact h.sublist hsub

theorem aupdate_length_some {β : Type} (l : List (ν × β)) (k : ν) (b b0 : β)
    (hnd : (l.map Prod.fst).Nodup) (h : alookup l k = some b0) :
    (aupdate l k b).length = l.length := by
  induction l with
  | nil => simp [alookup] at h
  | cons p rest ih =>
    obtain ⟨a, c⟩ := p
    simp only [List.map_cons, List.nodup_cons] at hnd
    by_cases hk : k = a
    · subst hk
      have hrest : rest.filter (fun p => decide (p.1 ≠ k)) = rest := by
        apply List.filter_eq_self.2
        intro p hp
        simp only [ne_eq, decide_eq_true_eq]
        intro hc
        exact hnd.1 (hc ▸ List.mem_map_of_mem Prod.fst hp)
      have hhead : (decide (((k, c) : ν × β).1 ≠ k)) = false := by simp
      simp only [aupdate, List.length_cons, List.filter_cons, hhead, Bool.false_eq_true, if_false,
        hrest]
    · simp only [alookup, hk, if_false] at h
      have := ih hnd.2 h
      simp only [aupdate, List.length_cons] at this ⊢
      have hak : ((a, c) : ν × β).1 ≠ k := fun h2 => hk h2.symm
      have hcons : List.filter (fun p => decide (p.1 ≠ k)) ((a, c) :: rest) =
          (a, c) :: List.filter (fun p => decide (p.1 ≠ k)) rest := by
        simp [List.filter_cons, hak]
      rw [hcons]
      simp only [List.length_cons]
      omega

theorem aupdate_length_none {β : Type} (l : List (ν × β)) (k : ν) (b : β)
    (h : alookup l k = none) :
    (aupdate l k b).length = l.length + 1 := by
  have hall := (alookup_none_iff l k).1 h
  have : l.filter (fun p => decide (p.1 ≠ k)) = l := by
    apply List.filter_eq_self.2
    intro p hp
    simpa using hall p hp
  simp only [aupdate, List.length_cons, this]

theorem ChainL.nonneg {g : Graph ν} (hg : NonnegWeights g) {x : ν} {l : List ν} {y : ν} {c : ℚ}
    (h : ChainL g x l y c) : 0 ≤ c := by
  induction h with
  | nil => exact le_refl 0
  | cons he hrest ih =>
    have := hg _ _ _ he
    linarith

theorem ChainL.append {g : Graph ν} {x : ν} {l1 : List ν} {y : ν} {c1 : ℚ}
    {l2 : List ν} {z : ν} {c2 : ℚ}
    (h1 : ChainL g x l1 y c1) (h2 : ChainL g y l2 z c2) :
    ChainL g x (l1 ++ l2) z (c1 + c2) := by
  induction h1 with
  | nil =>
    simpa using h2
  | cons he _ ih =>
    have := ChainL.cons he (ih h2)
    simpa [add_assoc] using this

theorem IsMinDistM.unique {g : Graph ν} {seeds : List ν} {v : ν} {d1 d2 : ℚ}
    (h1 : IsMinDistM g seeds v d1) (h2 : IsMinDistM g seeds v d2) : d1 = d2 := by
  obtain ⟨⟨t1, ht1, hc1⟩, hmin1⟩ := h1
  obtain ⟨⟨t2, ht2, hc2⟩, hmin2⟩ := h2
  exact le_antisymm (hmin1 t2 ht2 d2 hc2) (hmin2 t1 ht1 d1 hc1)

theorem qpopMin_none_iff (l : List (ℚ × ν)) : qpopMin l = none ↔ l = [] := by
  cases l with
  | nil => simp [qpopMin]
  | cons e es =>
    simp only [qpopMin]
    cases h : qpopMin es with
    | none => simp
    | some p =>
      obtain ⟨m, rest⟩ := p
      by_cases hle : e.1 ≤ m.1 <;> simp [hle]

theorem qpopMin_perm {l : List (ℚ × ν)} {e : ℚ × ν} {rest : List (ℚ × ν)}
    (h : qpopMin l = some (e, rest)) : l.Perm (e :: rest) := by
  induction l generalizing e rest with
  | nil => simp [qpopMin] at h
  | cons a es ih =>
    cases hes : qpopMin es with
    | none =>
      simp only [qpopMin, hes] at h
      have he : es = [] := (qpopMin_none_iff es).1 hes
      subst he
      simp only [Option.some.injEq, Prod.mk.injEq] at h
      obtain ⟨rfl, rfl⟩ := h
      exact List.Perm.refl _
    | some p =>
      obtain ⟨m, r⟩ := p
      simp only [qpopMin, hes] at h
      by_cases hle : a.1 ≤ m.1
      · rw [if_pos hle] at h
        simp only [Option.some.injEq, Prod.mk.injEq] at h
        obtain ⟨rfl, rfl⟩ := h
        exact List.Perm.refl _
      · rw [if_neg hle] at h
        simp only [Option.some.injEq, Prod.mk.injEq] at h
        obtain ⟨rfl, rfl⟩ := h
        exact ((ih hes).cons a).trans (List.Perm.swap m a r)

theorem qpopMin_min {l : List (ℚ × ν)} {e : ℚ × ν} {rest : List (ℚ × ν)}
    (h : qpopMin l = some (e, rest)) : ∀ a ∈ l, e.1 ≤ a.1 := by
  induction l generalizing e rest with
  | nil => simp [qpopMin] at h
  | cons a es ih =>
    cases hes : qpopMin es with
    | none =>
      simp only [qpopMin, hes] at h
      have he : es = [] := (qpopMin_none_iff es).1 hes
      subst he
      simp only [Option.some.injEq, Prod.mk.injEq] at h
      obtain ⟨rfl, rfl⟩ := h
      intro b hb
      simp only [List.mem_singleton] at hb
      subst hb
      exact le_refl _
    | some p =>
      obtain ⟨m, r⟩ := p
      simp only [qpopMin, hes] at h
      by_cases hle : a.1 ≤ m.1
      · rw [if_pos hle] at h
        simp only [Option.some.injEq, Prod.mk.injEq] at h
        obtain ⟨rfl, rfl⟩ := h
        intro b hb
        rcases List.mem_cons.1 hb with rfl | hb2
        · exact le_refl _
        · exact hle.trans (ih hes b hb2)
      · rw [if_neg hle] at h
        simp only [Option.some.injEq, Prod.mk.injEq] at h
        obtain ⟨rfl, rfl⟩ := h
        intro b hb
        rcases List.mem_cons.1 hb with rfl | hb2
        · exact le_of_lt (lt_of_not_le hle)
        · exact ih hes b hb2


theorem alookup_some_mem {β : Type} {l : List (ν × β)} {k : ν} {b : β}
    (h : alookup l k = some b) : (k, b) ∈ l := by
  induction l with
  | nil => simp [alookup] at h
  | cons p rest ih =>
    obtain ⟨a, c⟩ := p
    by_cases hk : k = a
    · subst hk
      simp [alookup] at h
      subst h
      exact List.mem_cons_self _ _
    · simp only [alookup, hk, if_false] at h
      exact List.mem_cons_of_mem _ (ih h)

theorem alookup_some_mem_keys {β : Type} {l : List (ν × β)} {k : ν} {b : β}
    (h : alookup l k = some b) : k ∈ l.map Prod.fst :=
  List.mem_map_of_mem Prod.fst (alookup_some_mem h)

theorem neighbors_sub {g : Graph ν} {u : ν} {w : ℚ} {v : ν}
    (h : (w, v) ∈ neighbors g u) : ∃ l, alookup g u = some l ∧ (w, v) ∈ l := by
  unfold neighbors at h
  cases hl : alookup g u with
  | none => rw [hl] at h; simp at h
  | some l => rw [hl] at h; exact ⟨l, rfl, h⟩

theorem edge_w_mem_weightList {g : Graph ν} {u : ν} {w : ℚ} {v : ν}
    (h : (w, v) ∈ neighbors g u) : w ∈ weightList g := by
  obtain ⟨l, hl, hm⟩ := neighbors_sub h
  unfold weightList
  rw [List.mem_flatMap]
  refine ⟨u, ?_, ?_⟩
  · rw [List.mem_dedup]
    exact alookup_some_mem_keys hl
  · exact List.mem_map_of_mem Prod.fst h

theorem target_mem_universe {g : Graph ν} (seeds : List ν) {u : ν} {w : ℚ} {v : ν}
    (h : (w, v) ∈ neighbors g u) : v ∈ universeList g seeds := by
  obtain ⟨l, hl, hm⟩ := neighbors_sub h
  unfold universeList
  rw [List.mem_dedup, List.mem_append]
  right
  rw [List.mem_flatMap]
  exact ⟨(u, l), alookup_some_mem hl, List.mem_map_of_mem Prod.snd hm⟩

theorem seeds_mem_universe {g : Graph ν} {seeds : List ν} {t : ν}
    (h : t ∈ seeds) : t ∈ universeList g seeds := by
  unfold universeList
  rw [List.mem_dedup, List.mem_append, List.mem_append]
  exact Or.inl (Or.inl h)

theorem weightList_mem_edge {g : Graph ν} {w : ℚ} (h : w ∈ weightList g) :
    ∃ u v, (w, v) ∈ neighbors g u := by
  unfold weightList at h
  rw [List.mem_flatMap] at h
  obtain ⟨u, _, hw⟩ := h
  rw [List.mem_map] at hw
  obtain ⟨⟨w2, v⟩, hm, he⟩ := hw
  exact ⟨u, v, he ▸ hm⟩

theorem weightList_nonneg {g : Graph ν} (hg : NonnegWeights g) :
    ∀ w ∈ weightList g, 0 ≤ w := by
  intro w hw
  obtain ⟨u, v, he⟩ := weightList_mem_edge hw
  exact hg u w v he

theorem weightCap_pos {g : Graph ν} (hg : NonnegWeights g) : 0 < weightCap g := by
  unfold weightCap
  have := List.sum_nonneg (weightList_nonneg hg)
  linarith

theorem edge_w_lt_cap {g : Graph ν} (hg : NonnegWeights g) {u : ν} {w : ℚ} {v : ν}
    (h : (w, v) ∈ neighbors g u) : w < weightCap g := by
  have hm := edge_w_mem_weightList h
  have := List.single_le_sum (weightList_nonneg hg) w hm
  unfold weightCap
  linarith

theorem foldl_lcm_pos (l : List ℚ) : ∀ a, 0 < a →
    0 < l.foldl (fun a q => Nat.lcm a q.den) a := by
  induction l with
  | nil => intro a ha; simpa using ha
  | cons q rest ih =>
    intro a ha
    simp only [List.foldl_cons]
    exact ih _ (Nat.lcm_pos ha q.pos)

theorem denLcm_pos (g : Graph ν) : 0 < denLcm g :=
  foldl_lcm_pos (weightList g) 1 Nat.one_pos

theorem foldl_lcm_init_dvd (l : List ℚ) : ∀ a, a ∣ l.foldl (fun a q => Nat.lcm a q.den) a := by
  induction l with
  | nil => intro a; simp
  | cons q rest ih =>
    intro a
    simp only [List.foldl_cons]
    exact (Nat.dvd_lcm_left a q.den).trans (ih _)

theorem den_dvd_foldl_lcm (l : List ℚ) {q : ℚ} (hq : q ∈ l) :
    ∀ a, q.den ∣ l.foldl (fun a q => Nat.lcm a q.den) a := by
  induction l with
  | nil => simp at hq
  | cons p rest ih =>
    intro a
    rcases List.mem_cons.1 hq with rfl | hm
    · simp only [List.foldl_cons]
      exact (Nat.dvd_lcm_right a q.den).trans (foldl_lcm_init_dvd rest _)
    · simp only [List.foldl_cons]
      exact ih hm _

theorem den_dvd_denLcm {g : Graph ν} {q : ℚ} (hq : q ∈ weightList g) :
    q.den ∣ denLcm g :=
  den_dvd_foldl_lcm (weightList g) hq 1

theorem IsIntMul.zero (D : ℕ) : IsIntMul D 0 := ⟨0, by simp⟩

theorem IsIntMul.add {D : ℕ} {a b : ℚ} (ha : IsIntMul D a) (hb : IsIntMul D b) :
    IsIntMul D (a + b) := by
  obtain ⟨za, hza⟩ := ha
  obtain ⟨zb, hzb⟩ := hb
  refine ⟨za + zb, ?_⟩
  push_cast
  rw [add_mul, hza, hzb]

theorem IsIntMul.of_den_dvd {D : ℕ} {q : ℚ} (hD : 0 < D) (h : q.den ∣ D) : IsIntMul D q := by
  obtain ⟨k, hk⟩ := h
  refine ⟨q.num * k, ?_⟩
  have hden : (q.den : ℚ) ≠ 0 := by
    exact_mod_cast q.den_nz
  have hq : q * (q.den : ℚ) = (q.num : ℚ) := by
    rw [eq_comm, ← div_eq_iff hden, Rat.num_div_den]
  rw [hk]
  push_cast
  rw [← mul_assoc, hq]

theorem chainW_nonneg {g : Graph ν} (hg : NonnegWeights g) {x y : ν} {c : ℚ}
    (h : ChainW g x y c) : 0 ≤ c := by
  obtain ⟨l, hl⟩ := h
  exact hl.nonneg hg


theorem alookup_isSome_of_mem_keys {β : Type} {l : List (ν × β)} {k : ν}
    (h : k ∈ l.map Prod.fst) : (alookup l k).isSome := by
  induction l with
  | nil => simp at h
  | cons p rest ih =>
    obtain ⟨a, b⟩ := p
    by_cases hk : k = a
    · subst hk
      simp [alookup]
    · simp only [List.map_cons, List.mem_cons] at h
      rcases h with h | h
      · exact absurd h hk
      · simp only [alookup, hk, if_false]
        exact ih h

theorem potOf_some {g : Graph ν} {seeds : List ν} {dist : List (ν × ℚ)} {v : ν} {dv : ℚ}
    (h : alookup dist v = some dv) :
    potOf g seeds dist v = ⌊dv * (denLcm g : ℚ)⌋.toNat := by
  simp [potOf, h]

theorem potOf_none {g : Graph ν} {seeds : List ν} {dist : List (ν × ℚ)} {v : ν}
    (h : alookup dist v = none) : potOf g seeds dist v = capN g seeds + 1 := by
  simp [potOf, h]

theorem pot_lt_of_lt {D : ℕ} (hD : 0 < D) {a b : ℚ} (ha : IsIntMul D a) (hb : IsIntMul D b)
    (ha0 : 0 ≤ a) (hab : a < b) :
    ⌊a * (D : ℚ)⌋.toNat < ⌊b * (D : ℚ)⌋.toNat := by
  obtain ⟨za, hza⟩ := ha
  obtain ⟨zb, hzb⟩ := hb
  have hDq : (0 : ℚ) < (D : ℚ) := by exact_mod_cast hD
  have hlt : a * (D : ℚ) < b * (D : ℚ) := mul_lt_mul_of_pos_right hab hDq
  have h0 : (0 : ℚ) ≤ a * (D : ℚ) := mul_nonneg ha0 (le_of_lt hDq)
  rw [hza] at h0
  rw [hza, hzb] at hlt
  rw [hza, hzb, Int.floor_intCast, Int.floor_intCast]
  have hz : za < zb := by exact_mod_cast hlt
  have hz0 : (0 : ℤ) ≤ za := by exact_mod_cast h0
  omega

theorem pot_le_cap {g : Graph ν} {seeds : List ν} {dv : ℚ}
    (h0 : 0 ≤ dv) (hb : dv ≤ ((universeList g seeds).length : ℚ) * weightCap g) :
    ⌊dv * (denLcm g : ℚ)⌋.toNat ≤ capN g seeds := by
  have hD : (0 : ℚ) ≤ (denLcm g : ℚ) := by positivity
  have hle : dv * (denLcm g : ℚ) ≤
      ((universeList g seeds).length : ℚ) * weightCap g * (denLcm g : ℚ) :=
    mul_le_mul_of_nonneg_right hb hD
  have hfl := Int.floor_le_floor hle
  have hfc := Int.floor_le_ceil (((universeList g seeds).length : ℚ) * weightCap g *
    (denLcm g : ℚ))
  unfold capN
  omega

theorem nodup_sub_length {l l2 : List ν} (h : l.Nodup) (hsub : ∀ x ∈ l, x ∈ l2) :
    l.length ≤ l2.length := by
  have h1 : l.toFinset.card = l.length := List.toFinset_card_of_nodup h
  have h2 : l.toFinset ⊆ l2.toFinset := by
    intro x hx
    rw [List.mem_toFinset] at hx ⊢
    exact hsub x hx
  have h3 := Finset.card_le_card h2
  have h4 := l2.toFinset_card_le
  omega

theorem distLen_le_universe {g : Graph ν} {seeds : List ν} {dist : List (ν × ℚ)}
    (hnd : (dist.map Prod.fst).Nodup)
    (hU : ∀ v, (alookup dist v).isSome → v ∈ universeList g seeds) :
    dist.length ≤ (universeList g seeds).length := by
  have : dist.length = (dist.map Prod.fst).length := (List.length_map _ _).symm
  rw [this]
  apply nodup_sub_length hnd
  intro x hx
  exact hU x (alookup_isSome_of_mem_keys hx)

theorem sum_map_le {l : List ν} {f f2 : ν → ℕ} (h : ∀ v ∈ l, f2 v ≤ f v) :
    (l.map f2).sum ≤ (l.map f).sum := List.sum_le_sum h

theorem sum_map_add_le {l : List ν} {f f2 : ν → ℕ} {v : ν} {k : ℕ}
    (hnd : l.Nodup) (hv : v ∈ l) (hle : ∀ x ∈ l, f2 x ≤ f x) (hlt : f2 v + k ≤ f v) :
    (l.map f2).sum + k ≤ (l.map f).sum := by
  induction l with
  | nil => simp at hv
  | cons a rest ih =>
    simp only [List.nodup_cons] at hnd
    simp only [List.map_cons, List.sum_cons]
    rcases List.mem_cons.1 hv with rfl | hv2
    · have hr : (rest.map f2).sum ≤ (rest.map f).sum :=
        sum_map_le (fun x hx => hle x (List.mem_cons_of_mem _ hx))
      omega
    · have ha : f2 a ≤ f a := hle a (List.mem_cons_self _ _)
      have := ih hnd.2 hv2 (fun x hx => hle x (List.mem_cons_of_mem _ hx))
      omega

theorem cfreaches_update {g : Graph ν} (hg : NonnegWeights g)
    {cf : List (ν × ν)} {dist : List (ν × ℚ)} {seeds : List ν}
    (hcf : ∀ v u, alookup cf v = some u → ∃ w dv du,
      (w, v) ∈ neighbors g u ∧ alookup dist v = some dv ∧
      alookup dist u = some du ∧ du + w ≤ dv)
    {v unew : ν} {x : ν} (hx : CfReaches cf seeds x) :
    ∀ dx, alookup dist x = some dx →
    (∀ dv, alookup dist v = some dv → dx < dv) →
    CfReaches (aupdate cf v unew) seeds x := by
  induction hx with
  | base hm => exact fun _ _ _ => CfReaches.base hm
  | @step x1 u1 hlink hreach ih =>
    intro dx hdx hlt
    have hne : x1 ≠ v := by
      intro hxe
      subst hxe
      exact absurd (hlt dx hdx) (lt_irrefl dx)
    obtain ⟨w, dv2, du1, hedge, hdv2, hdu1, hle⟩ := hcf x1 u1 hlink
    rw [hdx] at hdv2
    injection hdv2 with hdv2
    subst hdv2
    have hw0 : 0 ≤ w := hg _ _ _ hedge
    have hdu1le : du1 ≤ dx := by linarith
    refine CfReaches.step ?_ (ih du1 hdu1 ?_)
    · rw [alookup_aupdate_ne _ _ _ _ hne]
      exact hlink
    · intro dv hv
      exact lt_of_le_of_lt hdu1le (hlt dv hv)

theorem cfreaches_through {cf : List (ν × ν)} {seeds : List ν} {v unew : ν}
    (hv : CfReaches (aupdate cf v unew) seeds v) :
    ∀ {x : ν}, CfReaches cf seeds x → CfReaches (aupdate cf v unew) seeds x := by
  intro x hx
  induction hx with
  | base hm => exact CfReaches.base hm
  | @step x1 u1 hlink hreach ih =>
    by_cases hxv : x1 = v
    · subst hxv
      exact hv
    · refine CfReaches.step ?_ ih
      rw [alookup_aupdate_ne _ _ _ _ hxv]
      exact hlink

theorem alookup_aupdate {β : Type} (l : List (ν × β)) (k x : ν) (b : β) :
    alookup (aupdate l k b) x = if x = k then some b else alookup l x := by
  by_cases h : x = k
  · subst h
    rw [if_pos rfl]
    exact alookup_aupdate_self l x b
  · rw [if_neg h]
    exact alookup_aupdate_ne l k x b h

theorem update_inv {g : Graph ν} {h : ν → ℚ} {seeds : List ν} {sk : Option ν}
    {exn : List ν}
    (hg : NonnegWeights g) {σ : DState ν} {u : ν} {du w : ℚ} {v : ν}
    (he : (w, v) ∈ neighbors g u)
    (hdu : alookup σ.dist u = some du)
    (himp : ∀ dv, alookup σ.dist v = some dv → du + w < dv)
    (hI : Inv g h seeds sk exn σ) :
    Inv g h seeds sk exn (relaxStep h u du w v σ) := by
  unfold relaxStep
  have hw0 : 0 ≤ w := hg u w v he
  have hdu0 : 0 ≤ du := by
    obtain ⟨t, ht, hc⟩ := hI.sound u du hdu
    exact chainW_nonneg hg hc
  have hvu : v ≠ u := by
    intro hvue
    rw [hvue] at himp
    have := himp du hdu
    linarith
  have hvs : v ∉ seeds := by
    intro hm
    have h0 := (hI.seed0 v hm).1
    have := himp 0 h0
    linarith
  constructor
  case nodupKeys => exact aupdate_keys_nodup _ _ _ hI.nodupKeys
  case keysU =>
    intro x hx
    rw [alookup_aupdate] at hx
    by_cases hxv : x = v
    · rw [hxv]
      exact target_mem_universe seeds he
    · rw [if_neg hxv] at hx
      exact hI.keysU x hx
  case sound =>
    intro x dx hx
    rw [alookup_aupdate] at hx
    by_cases hxv : x = v
    · rw [if_pos hxv] at hx
      injection hx with hx
      rw [hxv, ← hx]
      obtain ⟨t, ht, l, hc⟩ := hI.sound u du hdu
      refine ⟨t, ht, l ++ [v], ?_⟩
      have hstep : ChainL g u [v] v (w + 0) := ChainL.cons he (ChainL.nil v)
      have := hc.append hstep
      simpa using this
    · rw [if_neg hxv] at hx
      exact hI.sound x dx hx
  case qlb =>
    intro p x hx
    rw [alookup_aupdate]
    rcases List.mem_cons.1 hx with hhead | htail
    · injection hhead with h1 h2
      rw [h2, if_pos rfl]
      exact ⟨du + w, rfl, le_of_eq h1.symm⟩
    · obtain ⟨dx, hdx, hle⟩ := hI.qlb p x htail
      by_cases hxv : x = v
      · rw [hxv] at hdx hle ⊢
        rw [if_pos rfl]
        have := himp dx hdx
        exact ⟨du + w, rfl, by linarith⟩
      · rw [if_neg hxv]
        exact ⟨dx, hdx, hle⟩
  case seed0 =>
    intro t ht
    have htv : t ≠ v := fun hv2 => hvs (hv2 ▸ ht)
    rw [alookup_aupdate, alookup_aupdate, if_neg htv, if_neg htv]
    exact hI.seed0 t ht
  case relaxedS =>
    intro x d hx hsk w2 y hy
    obtain ⟨dy, hdy, hle⟩ := hI.relaxedS x d hx hsk w2 y hy
    rw [alookup_aupdate]
    by_cases hyv : y = v
    · rw [hyv] at hdy ⊢
      rw [if_pos rfl]
      have := himp dy hdy
      exact ⟨du + w, rfl, by linarith⟩
    · rw [if_neg hyv]
      exact ⟨dy, hdy, hle⟩
  case entryS =>
    intro x dx hx
    rw [alookup_aupdate] at hx
    by_cases hxv : x = v
    · rw [if_pos hxv] at hx
      injection hx with hx
      left
      rw [hxv, ← hx]
      exact List.mem_cons_self _ _
    · rw [if_neg hxv] at hx
      rcases hI.entryS x dx hx with hq | hs | hexn
      · exact Or.inl (List.mem_cons_of_mem _ hq)
      · exact Or.inr (Or.inl hs)
      · exact Or.inr (Or.inr hexn)
  case monoS =>
    intro x d hx
    obtain ⟨dx, hdx, hle⟩ := hI.monoS x d hx
    rw [alookup_aupdate]
    by_cases hxv : x = v
    · rw [hxv] at hdx ⊢
      rw [if_pos rfl]
      have := himp dx hdx
      exact ⟨du + w, rfl, by linarith⟩
    · rw [if_neg hxv]
      exact ⟨dx, hdx, hle⟩
  case cfEdge =>
    intro x q hx
    rw [alookup_aupdate] at hx
    by_cases hxv : x = v
    · rw [if_pos hxv] at hx
      injection hx with hq
      rw [hxv, ← hq]
      refine ⟨w, du + w, du, he, ?_, ?_, le_refl _⟩
      · rw [alookup_aupdate, if_pos rfl]
      · rw [alookup_aupdate, if_neg (Ne.symm hvu)]
        exact hdu
    · rw [if_neg hxv] at hx
      obtain ⟨w2, dx, dq, hedge, hdx, hdq, hle⟩ := hI.cfEdge x q hx
      by_cases hqv : q = v
      · rw [hqv] at hdq
        have hlt := himp dq hdq
        refine ⟨w2, dx, du + w, hqv ▸ hedge, ?_, ?_, by linarith⟩
        · rw [alookup_aupdate, if_neg hxv]
          exact hdx
        · rw [alookup_aupdate, if_pos hqv]
      · refine ⟨w2, dx, dq, hedge, ?_, ?_, hle⟩
        · rw [alookup_aupdate, if_neg hxv]
          exact hdx
        · rw [alookup_aupdate, if_neg hqv]
          exact hdq
  case grounded =>
    intro x hx
    have hvreach : CfReaches (aupdate σ.came_from v u) seeds v := by
      have hur : CfReaches σ.came_from seeds u :=
        hI.grounded u (by rw [hdu]; rfl)
      refine CfReaches.step (alookup_aupdate_self _ _ _) ?_
      refine cfreaches_update hg hI.cfEdge hur du hdu ?_
      intro dv hv
      have := himp dv hv
      linarith
    rw [alookup_aupdate] at hx
    by_cases hxv : x = v
    · rw [hxv]
      exact hvreach
    · rw [if_neg hxv] at hx
      cases hlk : alookup σ.dist x with
      | none => rw [hlk] at hx; simp at hx
      | some dx =>
        exact cfreaches_through hvreach (hI.grounded x (by rw [hlk]; rfl))
  case distBound =>
    intro x dx hx
    have hcap := weightCap_pos hg
    rw [alookup_aupdate] at hx
    cases hprev : alookup σ.dist v with
    | some dv0 =>
      have hlen : (aupdate σ.dist v (du + w)).length = σ.dist.length :=
        aupdate_length_some _ _ _ _ hI.nodupKeys hprev
      rw [hlen]
      by_cases hxv : x = v
      · rw [if_pos hxv] at hx
        injection hx with hx
        have := himp dv0 hprev
        have hb := hI.distBound v dv0 hprev
        linarith [hx ▸ (by linarith : du + w < dv0)]
      · rw [if_neg hxv] at hx
        exact hI.distBound x dx hx
    | none =>
      have hlen : (aupdate σ.dist v (du + w)).length = σ.dist.length + 1 :=
        aupdate_length_none _ _ _ hprev
      rw [hlen]
      have hmono : ((σ.dist.length : ℚ)) * weightCap g ≤
          (((σ.dist.length + 1 : ℕ) : ℚ)) * weightCap g := by
        have hle : ((σ.dist.length : ℚ)) ≤ (((σ.dist.length + 1 : ℕ) : ℚ)) := by
          push_cast
          linarith
        exact mul_le_mul_of_nonneg_right hle (le_of_lt hcap)
      by_cases hxv : x = v
      · rw [if_pos hxv] at hx
        injection hx with hx
        have hb := hI.distBound u du hdu
        have hwc := edge_w_lt_cap hg he
        have hcast : (((σ.dist.length + 1 : ℕ) : ℚ)) = ((σ.dist.length : ℚ)) + 1 := by
          push_cast
          ring
        rw [hcast, ← hx]
        have : ((σ.dist.length : ℚ) + 1) * weightCap g =
            (σ.dist.length : ℚ) * weightCap g + weightCap g := by ring
        rw [this]
        linarith
      · rw [if_neg hxv] at hx
        have := hI.distBound x dx hx
        have hcast : (((σ.dist.length + 1 : ℕ) : ℚ)) = ((σ.dist.length : ℚ)) + 1 := by
          push_cast
          ring
        rw [hcast]
        nlinarith
  case intMul =>
    intro x dx hx
    rw [alookup_aupdate] at hx
    by_cases hxv : x = v
    · rw [if_pos hxv] at hx
      injection hx with hx
      rw [← hx]
      refine IsIntMul.add (hI.intMul u du hdu) ?_
      exact IsIntMul.of_den_dvd (denLcm_pos g) (den_dvd_denLcm (edge_w_mem_weightList he))
    · rw [if_neg hxv] at hx
      exact hI.intMul x dx hx


theorem relax_inv {g : Graph ν} {h : ν → ℚ} {seeds : List ν} {sk : Option ν}
    {exn : List ν}
    (hg : NonnegWeights g) {u : ν} {du : ℚ} :
    ∀ (es : List (ℚ × ν)) (σ : DState ν),
    (∀ w v, (w, v) ∈ es → (w, v) ∈ neighbors g u) →
    alookup σ.dist u = some du →
    Inv g h seeds sk exn σ →
    Inv g h seeds sk exn (relaxEdges h u du es σ) ∧
    alookup (relaxEdges h u du es σ).dist u = some du ∧
    (∀ w v, (w, v) ∈ es →
      ∃ dv, alookup (relaxEdges h u du es σ).dist v = some dv ∧ dv ≤ du + w) ∧
    (∀ x dx, alookup σ.dist x = some dx →
      ∃ dx2, alookup (relaxEdges h u du es σ).dist x = some dx2 ∧ dx2 ≤ dx) ∧
    (∀ e, e ∈ σ.queue → e ∈ (relaxEdges h u du es σ).queue) ∧
    (relaxEdges h u du es σ).settled = σ.settled := by
  intro es
  induction es with
  | nil =>
    intro σ hes hdu hI
    refine ⟨hI, hdu, ?_, ?_, ?_, rfl⟩
    · intro w v hm
      simp at hm
    · intro x dx hx
      exact ⟨dx, hx, le_refl _⟩
    · intro e he
      exact he
  | cons e es ih =>
    obtain ⟨w, v⟩ := e
    intro σ hes hdu hI
    have hehead : (w, v) ∈ neighbors g u := hes w v (List.mem_cons_self _ _)
    have hestail : ∀ w2 v2, (w2, v2) ∈ es → (w2, v2) ∈ neighbors g u :=
      fun w2 v2 hm => hes w2 v2 (List.mem_cons_of_mem _ hm)
    cases hlk : alookup σ.dist v with
    | none =>
      have hvu : v ≠ u := by
        intro hvue
        rw [hvue, hdu] at hlk
        exact Option.noConfusion hlk
      have himp : ∀ dv, alookup σ.dist v = some dv → du + w < dv := by
        intro dv hdv
        rw [hlk] at hdv
        exact Option.noConfusion hdv
      have hI2 := update_inv hg hehead hdu himp hI
      have hdu2 : alookup (relaxStep h u du w v σ).dist u = some du := by
        unfold relaxStep
        rw [alookup_aupdate, if_neg (Ne.symm hvu)]
        exact hdu
      have heq : relaxEdges h u du ((w, v) :: es) σ =
          relaxEdges h u du es (relaxStep h u du w v σ) := by
        simp only [relaxEdges, hlk]
      obtain ⟨hIf, hduf, hedges, hmono, hqueue, hsettled⟩ :=
        ih (relaxStep h u du w v σ) hestail hdu2 hI2
      rw [heq]
      refine ⟨hIf, hduf, ?_, ?_, ?_, ?_⟩
      · intro w2 v2 hm
        rcases List.mem_cons.1 hm with hh | ht
        · injection hh with hw2 hv2
          rw [hv2, hw2]
          have hv0 : alookup (relaxStep h u du w v σ).dist v = some (du + w) := by
            unfold relaxStep
            rw [alookup_aupdate, if_pos rfl]
          obtain ⟨dv2, hdv2, hle2⟩ := hmono v (du + w) hv0
          exact ⟨dv2, hdv2, hle2⟩
        · exact hedges w2 v2 ht
      · intro x dx hx
        have hxv : x ≠ v := by
          intro hxe
          rw [hxe, hlk] at hx
          exact Option.noConfusion hx
        have hx2 : alookup (relaxStep h u du w v σ).dist x = some dx := by
          unfold relaxStep
          rw [alookup_aupdate, if_neg hxv]
          exact hx
        exact hmono x dx hx2
      · intro e2 he2
        refine hqueue e2 ?_
        unfold relaxStep
        exact List.mem_cons_of_mem _ he2
      · rw [hsettled]
        rfl
    | some dv =>
      by_cases himp : du + w < dv
      · have himpf : ∀ dv2, alookup σ.dist v = some dv2 → du + w < dv2 := by
          intro dv2 hdv2
          rw [hlk] at hdv2
          injection hdv2 with hdv2
          rw [← hdv2]
          exact himp
        have hvu : v ≠ u := by
          intro hvue
          rw [hvue, hdu] at hlk
          injection hlk with hlk
          rw [← hlk] at himp
          have := hg u w v hehead
          linarith
        have hI2 := update_inv hg hehead hdu himpf hI
        have hdu2 : alookup (relaxStep h u du w v σ).dist u = some du := by
          unfold relaxStep
          rw [alookup_aupdate, if_neg (Ne.symm hvu)]
          exact hdu
        have heq : relaxEdges h u du ((w, v) :: es) σ =
            relaxEdges h u du es (relaxStep h u du w v σ) := by
          simp only [relaxEdges, hlk, if_pos himp]
        obtain ⟨hIf, hduf, hedges, hmono, hqueue, hsettled⟩ :=
          ih (relaxStep h u du w v σ) hestail hdu2 hI2
        rw [heq]
        refine ⟨hIf, hduf, ?_, ?_, ?_, ?_⟩
        · intro w2 v2 hm
          rcases List.mem_cons.1 hm with hh | ht
          · injection hh with hw2 hv2
            rw [hv2, hw2]
            have hv0 : alookup (relaxStep h u du w v σ).dist v = some (du + w) := by
              unfold relaxStep
              rw [alookup_aupdate, if_pos rfl]
            exact hmono v (du + w) hv0
          · exact hedges w2 v2 ht
        · intro x dx hx
          by_cases hxv : x = v
          · have hv0 : alookup (relaxStep h u du w v σ).dist v = some (du + w) := by
              unfold relaxStep
              rw [alookup_aupdate, if_pos rfl]
            obtain ⟨dx2, hdx2, hle2⟩ := hmono v (du + w) hv0
            refine ⟨dx2, hxv ▸ hdx2, ?_⟩
            rw [hxv, hlk] at hx
            injection hx with hx
            rw [← hx]
            linarith
          · have hx2 : alookup (relaxStep h u du w v σ).dist x = some dx := by
              unfold relaxStep
              rw [alookup_aupdate, if_neg hxv]
              exact hx
            exact hmono x dx hx2
        · intro e2 he2
          refine hqueue e2 ?_
          unfold relaxStep
          exact List.mem_cons_of_mem _ he2
        · rw [hsettled]
          rfl
      · have heq : relaxEdges h u du ((w, v) :: es) σ = relaxEdges h u du es σ := by
          simp only [relaxEdges, hlk, if_neg himp]
        obtain ⟨hIf, hduf, hedges, hmono, hqueue, hsettled⟩ := ih σ hestail hdu hI
        rw [heq]
        refine ⟨hIf, hduf, ?_, hmono, hqueue, hsettled⟩
        intro w2 v2 hm
        rcases List.mem_cons.1 hm with hh | ht
        · injection hh with hw2 hv2
          rw [hv2, hw2]
          obtain ⟨dv2, hdv2, hle2⟩ := hmono v dv hlk
          refine ⟨dv2, hdv2, ?_⟩
          push_neg at himp
          linarith
        · exact hedges w2 v2 ht

theorem chain_reach_inv {g : Graph ν} {h : ν → ℚ} {seeds : List ν} {sk : Option ν}
    (hg : NonnegWeights g) {σ : DState ν} (hI : Inv g h seeds sk [] σ)
    (hnos : SinkFree sk σ) :
    ∀ {x : ν} {l : List ν} {uEnd : ν} {cl : ℚ}, ChainL g x l uEnd cl →
    ∀ ax : ℚ, (∃ dx, alookup σ.dist x = some dx ∧ dx ≤ ax) →
    (∃ d, d ≤ ax + cl ∧ (uEnd, d) ∈ σ.settled) ∨
    (∃ y dy cs, alookup σ.dist y = some dy ∧ (dy + h y, y) ∈ σ.queue ∧
      ChainW g y uEnd cs ∧ dy + cs ≤ ax + cl) := by
  intro x l uEnd cl hch
  induction hch with
  | nil v =>
    intro ax hax
    obtain ⟨dx, hdx, hle⟩ := hax
    rcases hI.entryS v dx hdx with hq | hs | hexn
    · right
      exact ⟨v, dx, 0, hdx, hq, ⟨[], ChainL.nil v⟩, by simpa using hle⟩
    · left
      exact ⟨dx, by simpa using hle, hs⟩
    · simp at hexn
  | @cons x1 w v1 l1 t c1 he hrest ih =>
    intro ax hax
    obtain ⟨dx, hdx, hle⟩ := hax
    rcases hI.entryS x1 dx hdx with hq | hs | hexn
    · right
      refine ⟨x1, dx, w + c1, hdx, hq, ⟨v1 :: l1, ChainL.cons he hrest⟩, by linarith⟩
    · have hsk : sk ≠ some x1 := hnos x1 dx hs
      obtain ⟨dv1, hdv1, hlev⟩ := hI.relaxedS x1 dx hs hsk w v1 he
      have := ih (ax + w) ⟨dv1, hdv1, by linarith⟩
      rcases this with ⟨d, hdc, hds⟩ | ⟨y, dy, cs, hdy, hqy, hcs, hbound⟩
      · left
        exact ⟨d, by linarith, hds⟩
      · right
        exact ⟨y, dy, cs, hdy, hqy, hcs, by linarith⟩
    · simp at hexn

theorem accept_minimal {g : Graph ν} {h : ν → ℚ} {seeds : List ν} {sk : Option ν}
    (hg : NonnegWeights g) {σ : DState ν} (hI : Inv g h seeds sk [] σ)
    (hnos : SinkFree sk σ)
    {p : ℚ} {u : ν} {rest : List (ℚ × ν)}
    (hpop : qpopMin σ.queue = some ((p, u), rest))
    {du : ℚ} (hdu : alookup σ.dist u = some du) (hacc : ¬ (du + h u < p))
    (hgood : GoodH g h u) :
    ∀ t ∈ seeds, ∀ c, ChainW g t u c → du ≤ c := by
  rintro t ht c ⟨l, hch⟩
  have hperm := qpopMin_perm hpop
  have hpe : (p, u) ∈ σ.queue := hperm.mem_iff.2 (List.mem_cons_self _ _)
  obtain ⟨du2, hdu2, hlb⟩ := hI.qlb p u hpe
  rw [hdu] at hdu2
  injection hdu2 with hdu2
  rw [← hdu2] at hlb
  have hseed := (hI.seed0 t ht).1
  have hmain := chain_reach_inv hg hI hnos hch 0 ⟨0, hseed, le_refl 0⟩
  rcases hmain with ⟨d, hdc, hds⟩ | ⟨y, dy, cs, hdy, hqy, hcs, hbound⟩
  · obtain ⟨du3, hdu3, hled⟩ := hI.monoS u d hds
    rw [hdu] at hdu3
    injection hdu3 with hdu3
    rw [← hdu3] at hled
    linarith
  · have hmin := qpopMin_min hpop (dy + h y, y) hqy
    have hhy := hgood.2 y cs hcs
    have hhu := hgood.1
    simp only at hmin
    linarith

theorem update_measure {g : Graph ν} {h : ν → ℚ} {seeds : List ν} {sk : Option ν}
    {exn : List ν}
    (hg : NonnegWeights g) {σ : DState ν} {u : ν} {du w : ℚ} {v : ν}
    (he : (w, v) ∈ neighbors g u)
    (hdu : alookup σ.dist u = some du)
    (himp : ∀ dv, alookup σ.dist v = some dv → du + w < dv)
    (hI : Inv g h seeds sk exn σ) :
    measureOf g seeds (relaxStep h u du w v σ) + 1 ≤ measureOf g seeds σ := by
  have hI2 := update_inv hg he hdu himp hI
  have hcand0 : 0 ≤ du + w := by
    obtain ⟨t, ht, hc⟩ := hI.sound u du hdu
    have := chainW_nonneg hg hc
    have := hg u w v he
    linarith
  have hcint : IsIntMul (denLcm g) (du + w) :=
    IsIntMul.add (hI.intMul u du hdu)
      (IsIntMul.of_den_dvd (denLcm_pos g) (den_dvd_denLcm (edge_w_mem_weightList he)))
  have hlkv : alookup (relaxStep h u du w v σ).dist v = some (du + w) := by
    unfold relaxStep
    rw [alookup_aupdate, if_pos rfl]
  have hptle : ∀ x ∈ universeList g seeds,
      potOf g seeds (relaxStep h u du w v σ).dist x ≤ potOf g seeds σ.dist x := by
    intro x hx
    by_cases hxv : x = v
    · rw [hxv, potOf_some hlkv]
      cases hold : alookup σ.dist v with
      | none =>
        rw [potOf_none hold]
        have hb := hI2.distBound v (du + w) hlkv
        have hlen := distLen_le_universe hI2.nodupKeys hI2.keysU
        have hcap := weightCap_pos hg
        have hble : du + w ≤ ((universeList g seeds).length : ℚ) * weightCap g := by
          have hc1 : ((relaxStep h u du w v σ).dist.length : ℚ) ≤
              ((universeList g seeds).length : ℚ) := by
            exact_mod_cast hlen
          calc du + w ≤ ((relaxStep h u du w v σ).dist.length : ℚ) * weightCap g := hb
            _ ≤ ((universeList g seeds).length : ℚ) * weightCap g :=
              mul_le_mul_of_nonneg_right hc1 (le_of_lt hcap)
        have := @pot_le_cap _ _ g seeds _ hcand0 hble
        omega
      | some dv =>
        rw [potOf_some hold]
        have hlt := himp dv hold
        have := pot_lt_of_lt (denLcm_pos g) hcint (hI.intMul v dv hold) hcand0 hlt
        omega
    · have : alookup (relaxStep h u du w v σ).dist x = alookup σ.dist x := by
        unfold relaxStep
        rw [alookup_aupdate, if_neg hxv]
      unfold potOf
      rw [this]
  have hptlt : potOf g seeds (relaxStep h u du w v σ).dist v + 1 ≤ potOf g seeds σ.dist v := by
    rw [potOf_some hlkv]
    cases hold : alookup σ.dist v with
    | none =>
      rw [potOf_none hold]
      have hb := hI2.distBound v (du + w) hlkv
      have hlen := distLen_le_universe hI2.nodupKeys hI2.keysU
      have hcap := weightCap_pos hg
      have hble : du + w ≤ ((universeList g seeds).length : ℚ) * weightCap g := by
        have hc1 : ((relaxStep h u du w v σ).dist.length : ℚ) ≤
            ((universeList g seeds).length : ℚ) := by
          exact_mod_cast hlen
        calc du + w ≤ ((relaxStep h u du w v σ).dist.length : ℚ) * weightCap g := hb
          _ ≤ ((universeList g seeds).length : ℚ) * weightCap g :=
            mul_le_mul_of_nonneg_right hc1 (le_of_lt hcap)
      have := @pot_le_cap _ _ g seeds _ hcand0 hble
      omega
    | some dv =>
      rw [potOf_some hold]
      have hlt := himp dv hold
      have := pot_lt_of_lt (denLcm_pos g) hcint (hI.intMul v dv hold) hcand0 hlt
      omega
  have hsum := @sum_map_add_le _ _ (universeList g seeds) (potOf g seeds σ.dist)
    (potOf g seeds (relaxStep h u du w v σ).dist) v 1
    (List.nodup_dedup _) (target_mem_universe seeds he) hptle hptlt
  have hq : (relaxStep h u du w v σ).queue.length = σ.queue.length + 1 := by
    unfold relaxStep
    rfl
  unfold measureOf
  rw [hq]
  omega

theorem relax_measure {g : Graph ν} {h : ν → ℚ} {seeds : List ν} {sk : Option ν}
    {exn : List ν}
    (hg : NonnegWeights g) {u : ν} {du : ℚ} :
    ∀ (es : List (ℚ × ν)) (σ : DState ν),
    (∀ w v, (w, v) ∈ es → (w, v) ∈ neighbors g u) →
    alookup σ.dist u = some du →
    Inv g h seeds sk exn σ →
    measureOf g seeds (relaxEdges h u du es σ) ≤ measureOf g seeds σ := by
  intro es
  induction es with
  | nil =>
    intro σ hes hdu hI
    exact le_refl _
  | cons e es ih =>
    obtain ⟨w, v⟩ := e
    intro σ hes hdu hI
    have hehead : (w, v) ∈ neighbors g u := hes w v (List.mem_cons_self _ _)
    have hestail : ∀ w2 v2, (w2, v2) ∈ es → (w2, v2) ∈ neighbors g u :=
      fun w2 v2 hm => hes w2 v2 (List.mem_cons_of_mem _ hm)
    cases hlk : alookup σ.dist v with
    | none =>
      have hvu : v ≠ u := by
        intro hvue
        rw [hvue, hdu] at hlk
        exact Option.noConfusion hlk
      have himp : ∀ dv, alookup σ.dist v = some dv → du + w < dv := by
        intro dv hdv
        rw [hlk] at hdv
        exact Option.noConfusion hdv
      have hI2 := update_inv hg hehead hdu himp hI
      have hdu2 : alookup (relaxStep h u du w v σ).dist u = some du := by
        unfold relaxStep
        rw [alookup_aupdate, if_neg (Ne.symm hvu)]
        exact hdu
      have heq : relaxEdges h u du ((w, v) :: es) σ =
          relaxEdges h u du es (relaxStep h u du w v σ) := by
        simp only [relaxEdges, hlk]
      rw [heq]
      have h1 := ih (relaxStep h u du w v σ) hestail hdu2 hI2
      have h2 := update_measure hg hehead hdu himp hI
      omega
    | some dv =>
      by_cases himp : du + w < dv
      · have himpf : ∀ dv2, alookup σ.dist v = some dv2 → du + w < dv2 := by
          intro dv2 hdv2
          rw [hlk] at hdv2
          injection hdv2 with hdv2
          rw [← hdv2]
          exact himp
        have hvu : v ≠ u := by
          intro hvue
          rw [hvue, hdu] at hlk
          injection hlk with hlk
          rw [← hlk] at himp
          have := hg u w v hehead
          linarith
        have hI2 := update_inv hg hehead hdu himpf hI
        have hdu2 : alookup (relaxStep h u du w v σ).dist u = some du := by
          unfold relaxStep
          rw [alookup_aupdate, if_neg (Ne.symm hvu)]
          exact hdu
        have heq : relaxEdges h u du ((w, v) :: es) σ =
            relaxEdges h u du es (relaxStep h u du w v σ) := by
          simp only [relaxEdges, hlk, if_pos himp]
        rw [heq]
        have h1 := ih (relaxStep h u du w v σ) hestail hdu2 hI2
        have h2 := update_measure hg hehead hdu himpf hI
        omega
      · have heq : relaxEdges h u du ((w, v) :: es) σ = relaxEdges h u du es σ := by
          simp only [relaxEdges, hlk, if_neg himp]
        rw [heq]
        exact ih σ hestail hdu hI

theorem dstep_empty {g : Graph ν} {h : ν → ℚ} {sk : Option ν} {σ : DState ν}
    (hpop : qpopMin σ.queue = none) : dstep g h sk σ = StepRes.done σ := by
  simp only [dstep, hpop]

theorem dstep_stale {g : Graph ν} {h : ν → ℚ} {sk : Option ν} {σ : DState ν}
    {p : ℚ} {u : ν} {rest : List (ℚ × ν)} {du : ℚ}
    (hpop : qpopMin σ.queue = some ((p, u), rest))
    (hdu : alookup σ.dist u = some du)
    (hstale : du + h u < p) :
    dstep g h sk σ = StepRes.next { σ with queue := rest } := by
  simp only [dstep, hpop, hdu, if_pos hstale]

theorem dstep_halt {g : Graph ν} {h : ν → ℚ} {sk : Option ν} {σ : DState ν}
    {p : ℚ} {u : ν} {rest : List (ℚ × ν)} {du : ℚ}
    (hpop : qpopMin σ.queue = some ((p, u), rest))
    (hdu : alookup σ.dist u = some du)
    (hstale : ¬ (du + h u < p)) (hsink : sk = some u) :
    dstep g h sk σ =
      StepRes.done { σ with queue := rest, settled := (u, du) :: σ.settled } := by
  simp only [dstep, hpop, hdu, if_neg hstale, if_pos hsink]

theorem dstep_accept {g : Graph ν} {h : ν → ℚ} {sk : Option ν} {σ : DState ν}
    {p : ℚ} {u : ν} {rest : List (ℚ × ν)} {du : ℚ}
    (hpop : qpopMin σ.queue = some ((p, u), rest))
    (hdu : alookup σ.dist u = some du)
    (hstale : ¬ (du + h u < p)) (hsink : sk ≠ some u) :
    dstep g h sk σ =
      StepRes.next
        { relaxEdges h u du (neighbors g u) { σ with queue := rest } with
          settled :=
            (u, du) :: (relaxEdges h u du (neighbors g u)
              { σ with queue := rest }).settled } := by
  simp only [dstep, hpop, hdu, if_neg hstale, if_neg hsink]

theorem pop_mid_inv {g : Graph ν} {h : ν → ℚ} {seeds : List ν} {sk : Option ν}
    {σ : DState ν} (hI : Inv g h seeds sk [] σ)
    {p : ℚ} {u : ν} {rest : List (ℚ × ν)}
    (hpop : qpopMin σ.queue = some ((p, u), rest)) :
    Inv g h seeds sk [u] { σ with queue := rest } := by
  have hperm := qpopMin_perm hpop
  constructor
  case nodupKeys => exact hI.nodupKeys
  case keysU => exact hI.keysU
  case sound => exact hI.sound
  case qlb =>
    intro p2 x hx
    exact hI.qlb p2 x (hperm.mem_iff.2 (List.mem_cons_of_mem _ hx))
  case seed0 => exact hI.seed0
  case relaxedS => exact hI.relaxedS
  case entryS =>
    intro x dx hx
    rcases hI.entryS x dx hx with hq | hs | hexn
    · have hmem : (dx + h x, x) ∈ (p, u) :: rest := hperm.mem_iff.1 hq
      rcases List.mem_cons.1 hmem with hh | ht
      · injection hh with h1 h2
        right
        right
        rw [h2]
        exact List.mem_singleton.2 rfl
      · exact Or.inl ht
    · exact Or.inr (Or.inl hs)
    · simp at hexn
  case monoS => exact hI.monoS
  case cfEdge => exact hI.cfEdge
  case grounded => exact hI.grounded
  case distBound => exact hI.distBound
  case intMul => exact hI.intMul

theorem dstep_main {g : Graph ν} {h : ν → ℚ} {seeds : List ν} {sk : Option ν} {A : ν → Prop}
    (hg : NonnegWeights g) (hA : ∀ v, A v → GoodH g h v)
    {σ : DState ν} (hI : Inv g h seeds sk [] σ) (hnos : SinkFree sk σ)
    (hLB : SettledLB g seeds A σ) :
    (∀ σ2, dstep g h sk σ = StepRes.next σ2 →
      Inv g h seeds sk [] σ2 ∧ SinkFree sk σ2 ∧ SettledLB g seeds A σ2 ∧
      measureOf g seeds σ2 < measureOf g seeds σ ∧
      (∀ x dx, alookup σ.dist x = some dx → ∃ dx2, alookup σ2.dist x = some dx2 ∧ dx2 ≤ dx)) ∧
    (∀ σ2, dstep g h sk σ = StepRes.done σ2 →
      Inv g h seeds sk [] σ2 ∧ SettledLB g seeds A σ2 ∧
      (σ2.queue = [] ∨ ∃ t du2, sk = some t ∧ (t, du2) ∈ σ2.settled) ∧
      σ2.dist = σ.dist ∧ σ2.came_from = σ.came_from) := by
  cases hpop : qpopMin σ.queue with
  | none =>
    have hqe : σ.queue = [] := (qpopMin_none_iff σ.queue).1 hpop
    have hd : dstep g h sk σ = StepRes.done σ := dstep_empty hpop
    constructor
    · intro σ2 hstep
      rw [hd] at hstep
      exact absurd hstep (by simp)
    · intro σ2 hstep
      rw [hd] at hstep
      injection hstep with hstep
      rw [← hstep]
      exact ⟨hI, hLB, Or.inl hqe, rfl, rfl⟩
  | some pr =>
    obtain ⟨⟨p, u⟩, rest⟩ := pr
    have hperm := qpopMin_perm hpop
    have hlen : σ.queue.length = rest.length + 1 := by
      have := hperm.length_eq
      simpa using this
    have hpe : (p, u) ∈ σ.queue := hperm.mem_iff.2 (List.mem_cons_self _ _)
    obtain ⟨du, hdu, hplb⟩ := hI.qlb p u hpe
    have hmeasmid : measureOf g seeds { σ with queue := rest } + 1 = measureOf g seeds σ := by
      unfold measureOf
      simp only [hlen]
      omega
    by_cases hstale : du + h u < p
    · have hd : dstep g h sk σ = StepRes.next { σ with queue := rest } :=
        dstep_stale hpop hdu hstale
      have hstaleI : Inv g h seeds sk [] { σ with queue := rest } := by
        constructor
        case nodupKeys => exact hI.nodupKeys
        case keysU => exact hI.keysU
        case sound => exact hI.sound
        case qlb =>
          intro p2 x hx
          exact hI.qlb p2 x (hperm.mem_iff.2 (List.mem_cons_of_mem _ hx))
        case seed0 => exact hI.seed0
        case relaxedS => exact hI.relaxedS
        case entryS =>
          intro x dx hx
          rcases hI.entryS x dx hx with hq | hs | hexn
          · have hmem : (dx + h x, x) ∈ (p, u) :: rest := hperm.mem_iff.1 hq
            rcases List.mem_cons.1 hmem with hh | ht
            · injection hh with h1 h2
              rw [h2] at hx
              rw [hdu] at hx
              injection hx with hx
              rw [h2, ← hx] at h1
              exact absurd h1 (by linarith)
            · exact Or.inl ht
          · exact Or.inr (Or.inl hs)
          · simp at hexn
        case monoS => exact hI.monoS
        case cfEdge => exact hI.cfEdge
        case grounded => exact hI.grounded
        case distBound => exact hI.distBound
        case intMul => exact hI.intMul
      constructor
      · intro σ2 hstep
        rw [hd] at hstep
        injection hstep with hstep
        rw [← hstep]
        refine ⟨hstaleI, hnos, hLB, by omega, ?_⟩
        intro x dx hx
        exact ⟨dx, hx, le_refl _⟩
      · intro σ2 hstep
        rw [hd] at hstep
        exact absurd hstep (by simp)
    · by_cases hsink : sk = some u
      · have hd := dstep_halt (g := g) hpop hdu hstale hsink
        have hInvHalt : Inv g h seeds sk []
            { σ with queue := rest, settled := (u, du) :: σ.settled } := by
          constructor
          case nodupKeys => exact hI.nodupKeys
          case keysU => exact hI.keysU
          case sound => exact hI.sound
          case qlb =>
            intro p2 x hx
            exact hI.qlb p2 x (hperm.mem_iff.2 (List.mem_cons_of_mem _ hx))
          case seed0 => exact hI.seed0
          case relaxedS =>
            intro x d hxm hne
            rcases List.mem_cons.1 hxm with hh | ht
            · injection hh with h1 h2
              rw [h1] at hne
              exact absurd hsink hne
            · exact hI.relaxedS x d ht hne
          case entryS =>
            intro x dx hx
            rcases hI.entryS x dx hx with hq | hs | hexn
            · have hmem : (dx + h x, x) ∈ (p, u) :: rest := hperm.mem_iff.1 hq
              rcases List.mem_cons.1 hmem with hh | ht
              · injection hh with h1 h2
                rw [h2] at hx
                rw [hdu] at hx
                injection hx with hx
                right
                left
                rw [h2, ← hx]
                exact List.mem_cons_self _ _
              · exact Or.inl ht
            · exact Or.inr (Or.inl (List.mem_cons_of_mem _ hs))
            · simp at hexn
          case monoS =>
            intro x d hxm
            rcases List.mem_cons.1 hxm with hh | ht
            · injection hh with h1 h2
              rw [h1, h2]
              exact ⟨du, hdu, le_refl _⟩
            · exact hI.monoS x d ht
          case cfEdge => exact hI.cfEdge
          case grounded => exact hI.grounded
          case distBound => exact hI.distBound
          case intMul => exact hI.intMul
        constructor
        · intro σ2 hstep
          rw [hd] at hstep
          exact absurd hstep (by simp)
        · intro σ2 hstep
          rw [hd] at hstep
          injection hstep with hstep
          rw [← hstep]
          refine ⟨hInvHalt, ?_, ?_, rfl, rfl⟩
          · intro v d hv hvm t ht c hc
            rcases List.mem_cons.1 hvm with hh | ht2
            · injection hh with h1 h2
              rw [h2]
              rw [h1] at hv hc
              exact accept_minimal hg hI hnos hpop hdu hstale (hA u hv) t ht c hc
            · exact hLB v d hv ht2 t ht c hc
          · right
            exact ⟨u, du, hsink, List.mem_cons_self _ _⟩
      · have hd := dstep_accept (g := g) hpop hdu hstale hsink
        have hmidInv : Inv g h seeds sk [u] { σ with queue := rest } := pop_mid_inv hI hpop
        have hmiddu : alookup ({ σ with queue := rest } : DState ν).dist u = some du := hdu
        obtain ⟨hIf, hduf, hedges, hmono, hqueue, hsettled⟩ :=
          relax_inv hg (neighbors g u) { σ with queue := rest }
            (fun w v hm => hm) hmiddu hmidInv
        have hmeas := relax_measure hg (neighbors g u) { σ with queue := rest }
          (fun w v hm => hm) hmiddu hmidInv
        have hInvAcc : Inv g h seeds sk []
            { relaxEdges h u du (neighbors g u) { σ with queue := rest } with
              settled := (u, du) :: (relaxEdges h u du (neighbors g u)
                { σ with queue := rest }).settled } := by
          constructor
          case nodupKeys => exact hIf.nodupKeys
          case keysU => exact hIf.keysU
          case sound => exact hIf.sound
          case qlb => exact hIf.qlb
          case seed0 => exact hIf.seed0
          case relaxedS =>
            intro x d hxm hne
            rcases List.mem_cons.1 hxm with hh | ht
            · injection hh with h1 h2
              intro w v hedge
              rw [h1] at hedge
              rw [h2]
              exact hedges w v hedge
            · exact hIf.relaxedS x d ht hne
          case entryS =>
            intro x dx hx
            rcases hIf.entryS x dx hx with hq | hs | hexn
            · exact Or.inl hq
            · exact Or.inr (Or.inl (List.mem_cons_of_mem _ hs))
            · rw [List.mem_singleton] at hexn
              rw [hexn] at hx
              rw [hduf] at hx
              injection hx with hx
              right
              left
              rw [hexn, ← hx]
              exact List.mem_cons_self _ _
          case monoS =>
            intro x d hxm
            rcases List.mem_cons.1 hxm with hh | ht
            · injection hh with h1 h2
              rw [h1, h2]
              exact ⟨du, hduf, le_refl _⟩
            · exact hIf.monoS x d ht
          case cfEdge => exact hIf.cfEdge
          case grounded => exact hIf.grounded
          case distBound => exact hIf.distBound
          case intMul => exact hIf.intMul
        constructor
        · intro σ2 hstep
          rw [hd] at hstep
          injection hstep with hstep
          rw [← hstep]
          refine ⟨hInvAcc, ?_, ?_, ?_, ?_⟩
          · intro y d hym
            rcases List.mem_cons.1 hym with hh | ht
            · injection hh with h1 h2
              rw [h1]
              exact hsink
            · rw [hsettled] at ht
              exact hnos y d ht
          · intro v d hv hvm t ht c hc
            rcases List.mem_cons.1 hvm with hh | ht2
            · injection hh with h1 h2
              rw [h2]
              rw [h1] at hv hc
              exact accept_minimal hg hI hnos hpop hdu hstale (hA u hv) t ht c hc
            · rw [hsettled] at ht2
              exact hLB v d hv ht2 t ht c hc
          · change measureOf g seeds
              (relaxEdges h u du (neighbors g u) { σ with queue := rest }) <
              measureOf g seeds σ
            omega
          · intro x dx hx
            exact hmono x dx hx
        · intro σ2 hstep
          rw [hd] at hstep
          exact absurd hstep (by simp)

theorem sinkfree_none (σ : DState ν) : SinkFree (none : Option ν) σ := by
  intro y d hm hc
  exact Option.noConfusion hc

theorem goodH_zero {g : Graph ν} (hg : NonnegWeights g) (u : ν) :
    GoodH g (fun _ => (0 : ℚ)) u := by
  refine ⟨le_refl 0, ?_⟩
  intro v c hc
  exact chainW_nonneg hg hc

theorem alookup_const_map {l : List ν} {v : ν} {c : ℚ} :
    alookup (l.map (fun t => (t, c))) v = if v ∈ l then some c else none := by
  induction l with
  | nil => simp [alookup]
  | cons a rest ih =>
    by_cases hv : v = a
    · rw [hv]
      simp [alookup]
    · simp only [List.map_cons, alookup, hv, if_false, ih, List.mem_cons]
      by_cases hm : v ∈ rest
      · simp [hm, hv]
      · simp [hm, hv]

theorem init_inv {g : Graph ν} {h : ν → ℚ} {seeds : List ν} {sk : Option ν}
    (hg : NonnegWeights g) (hnd : seeds.Nodup) :
    Inv g h seeds sk [] (initState h seeds) := by
  have hlook : ∀ v : ν, alookup (initState h seeds).dist v =
      if v ∈ seeds then some 0 else none := by
    intro v
    exact alookup_const_map
  constructor
  case nodupKeys =>
    have : (initState h seeds).dist.map Prod.fst = seeds := by
      unfold initState
      simp only [List.map_map]
      have hcomp : (Prod.fst ∘ fun t : ν => (t, (0 : ℚ))) = id := by
        funext t
        rfl
      rw [hcomp, List.map_id]
    rw [this]
    exact hnd
  case keysU =>
    intro v hv
    rw [hlook] at hv
    by_cases hm : v ∈ seeds
    · exact seeds_mem_universe hm
    · rw [if_neg hm] at hv
      simp at hv
  case sound =>
    intro v dv hv
    rw [hlook] at hv
    by_cases hm : v ∈ seeds
    · rw [if_pos hm] at hv
      injection hv with hv
      exact ⟨v, hm, [], hv ▸ ChainL.nil v⟩
    · rw [if_neg hm] at hv
      exact Option.noConfusion hv
  case qlb =>
    intro p x hx
    unfold initState at hx
    simp only [List.mem_map] at hx
    obtain ⟨t, ht, hte⟩ := hx
    injection hte with h1 h2
    rw [← h2, hlook, if_pos (h2 ▸ ht)]
    refine ⟨0, rfl, ?_⟩
    rw [zero_add, h1]
  case seed0 =>
    intro t ht
    constructor
    · rw [hlook, if_pos ht]
    · rfl
  case relaxedS =>
    intro u d hm
    exact absurd hm (by simp [initState])
  case entryS =>
    intro v dv hv
    rw [hlook] at hv
    by_cases hm : v ∈ seeds
    · rw [if_pos hm] at hv
      injection hv with hv
      left
      rw [← hv, zero_add]
      unfold initState
      simp only [List.mem_map]
      exact ⟨v, hm, rfl⟩
    · rw [if_neg hm] at hv
      exact Option.noConfusion hv
  case monoS =>
    intro u d hm
    exact absurd hm (by simp [initState])
  case cfEdge =>
    intro v u hv
    exact absurd hv (by simp [initState, alookup])
  case grounded =>
    intro v hv
    rw [hlook] at hv
    by_cases hm : v ∈ seeds
    · exact CfReaches.base hm
    · rw [if_neg hm] at hv
      simp at hv
  case distBound =>
    intro v dv hv
    rw [hlook] at hv
    by_cases hm : v ∈ seeds
    · rw [if_pos hm] at hv
      injection hv with hv
      rw [← hv]
      have := weightCap_pos hg
      positivity
    · rw [if_neg hm] at hv
      exact Option.noConfusion hv
  case intMul =>
    intro v dv hv
    rw [hlook] at hv
    by_cases hm : v ∈ seeds
    · rw [if_pos hm] at hv
      injection hv with hv
      rw [← hv]
      exact IsIntMul.zero _
    · rw [if_neg hm] at hv
      exact Option.noConfusion hv

theorem settledLB_init {g : Graph ν} {h : ν → ℚ} {seeds : List ν} {A : ν → Prop} :
    SettledLB g seeds A (initState h seeds) := by
  intro v d hv hm
  exact absurd hm (by simp [initState])

theorem dstep_none_done {g : Graph ν} {h : ν → ℚ} {σ σf : DState ν}
    (hstep : dstep g h none σ = StepRes.done σf) : σf = σ ∧ σ.queue = [] := by
  cases hpop : qpopMin σ.queue with
  | none =>
    rw [dstep_empty hpop] at hstep
    injection hstep with hstep
    exact ⟨hstep.symm, (qpopMin_none_iff σ.queue).1 hpop⟩
  | some pr =>
    obtain ⟨⟨p, u⟩, rest⟩ := pr
    cases hdu : alookup σ.dist u with
    | none =>
      have : dstep g h none σ = StepRes.next { σ with queue := rest } := by
        simp only [dstep, hpop, hdu]
      rw [this] at hstep
      exact absurd hstep (by simp)
    | some du =>
      by_cases hstale : du + h u < p
      · rw [dstep_stale hpop hdu hstale] at hstep
        exact absurd hstep (by simp)
      · have hsink : (none : Option ν) ≠ some u := by simp
        rw [dstep_accept hpop hdu hstale hsink] at hstep
        exact absurd hstep (by simp)

theorem dloop_fix {g : Graph ν} {h : ν → ℚ} {sk : Option ν} {σ : DState ν}
    (hq : σ.queue = []) : ∀ k, dloop g h sk k σ = σ := by
  intro k
  cases k with
  | zero => rfl
  | succ k2 =>
    have hpop : qpopMin σ.queue = none := by
      rw [(qpopMin_none_iff σ.queue).2 hq]
    simp only [dloop, dstep_empty hpop]

theorem dloop_add {g : Graph ν} {h : ν → ℚ} :
    ∀ (a b : Nat) (σ : DState ν),
    dloop g h none (a + b) σ = dloop g h none b (dloop g h none a σ) := by
  intro a
  induction a with
  | zero =>
    intro b σ
    rw [Nat.zero_add]
    rfl
  | succ a2 ih =>
    intro b σ
    have hadd : a2 + 1 + b = (a2 + b) + 1 := by omega
    rw [hadd]
    cases hs : dstep g h none σ with
    | done σf =>
      obtain ⟨hfe, hqe⟩ := dstep_none_done hs
      have hqf : σf.queue = [] := by
        rw [hfe]
        exact hqe
      simp only [dloop, hs]
      rw [dloop_fix hqf]
    | next σ2 =>
      simp only [dloop, hs]
      exact ih b σ2

theorem dloop_pre {g : Graph ν} {h : ν → ℚ} {seeds : List ν} {A : ν → Prop}
    (hg : NonnegWeights g) (hA : ∀ v, A v → GoodH g h v) :
    ∀ (k : Nat) (σ0 : DState ν), Inv g h seeds none [] σ0 → SettledLB g seeds A σ0 →
    Inv g h seeds none [] (dloop g h none k σ0) ∧
    SettledLB g seeds A (dloop g h none k σ0) ∧
    (∀ x dx, alookup σ0.dist x = some dx →
      ∃ dx2, alookup (dloop g h none k σ0).dist x = some dx2 ∧ dx2 ≤ dx) := by
  intro k
  induction k with
  | zero =>
    intro σ0 hI hLB
    exact ⟨hI, hLB, fun x dx hx => ⟨dx, hx, le_refl _⟩⟩
  | succ k2 ih =>
    intro σ0 hI hLB
    cases hs : dstep g h none σ0 with
    | done σf =>
      obtain ⟨hfe, hqe⟩ := dstep_none_done hs
      simp only [dloop, hs]
      rw [hfe]
      exact ⟨hI, hLB, fun x dx hx => ⟨dx, hx, le_refl _⟩⟩
    | next σ2 =>
      obtain ⟨hI2, hSF2, hLB2, hm2, hmono2⟩ :=
        (dstep_main hg hA hI (sinkfree_none σ0) hLB).1 σ2 hs
      simp only [dloop, hs]
      obtain ⟨hIf, hLBf, hmonof⟩ := ih σ2 hI2 hLB2
      refine ⟨hIf, hLBf, ?_⟩
      intro x dx hx
      obtain ⟨dx2, hx2, hle2⟩ := hmono2 x dx hx
      obtain ⟨dx3, hx3, hle3⟩ := hmonof x dx2 hx2
      exact ⟨dx3, hx3, le_trans hle3 hle2⟩

theorem dloop_out {g : Graph ν} {h : ν → ℚ} {seeds : List ν} {sk : Option ν} {A : ν → Prop}
    (hg : NonnegWeights g) (hA : ∀ v, A v → GoodH g h v) :
    ∀ (fuel : Nat) (σ0 : DState ν), Inv g h seeds sk [] σ0 → SinkFree sk σ0 →
    SettledLB g seeds A σ0 → measureOf g seeds σ0 < fuel →
    Inv g h seeds sk [] (dloop g h sk fuel σ0) ∧
    SettledLB g seeds A (dloop g h sk fuel σ0) ∧
    ((dloop g h sk fuel σ0).queue = [] ∨
      ∃ t du2, sk = some t ∧ (t, du2) ∈ (dloop g h sk fuel σ0).settled) := by
  intro fuel
  induction fuel with
  | zero =>
    intro σ0 hI hSF hLB hm
    omega
  | succ f2 ih =>
    intro σ0 hI hSF hLB hm
    cases hs : dstep g h sk σ0 with
    | done σf =>
      obtain ⟨hIf, hLBf, hfin, hde, hce⟩ := (dstep_main hg hA hI hSF hLB).2 σf hs
      simp only [dloop, hs]
      exact ⟨hIf, hLBf, hfin⟩
    | next σ2 =>
      obtain ⟨hI2, hSF2, hLB2, hm2, hmono2⟩ := (dstep_main hg hA hI hSF hLB).1 σ2 hs
      simp only [dloop, hs]
      exact ih σ2 hI2 hSF2 hLB2 (by omega)

theorem measure_init {g : Graph ν} (h : ν → ℚ) (seeds : List ν) :
    measureOf g seeds (initState h seeds) =
      measureOf g seeds (initState (fun _ => 0) seeds) := by
  unfold measureOf initState
  simp [List.length_map]

theorem runLoop_main {g : Graph ν} {h : ν → ℚ} {seeds : List ν} {sk : Option ν} {A : ν → Prop}
    (hg : NonnegWeights g) (hA : ∀ v, A v → GoodH g h v) (hnd : seeds.Nodup) :
    Inv g h seeds sk [] (runLoop g h sk seeds) ∧
    SettledLB g seeds A (runLoop g h sk seeds) ∧
    ((runLoop g h sk seeds).queue = [] ∨
      ∃ t du2, sk = some t ∧ (t, du2) ∈ (runLoop g h sk seeds).settled) := by
  have hI : Inv g h seeds sk [] (initState h seeds) := init_inv hg hnd
  have hfuel : measureOf g seeds (initState h seeds) < totalFuel g seeds := by
    unfold totalFuel
    rw [measure_init]
    omega
  have hSF : SinkFree sk (initState h seeds) := by
    intro y d hm
    exact absurd hm (by simp [initState])
  exact dloop_out hg hA (totalFuel g seeds) (initState h seeds) hI hSF settledLB_init hfuel

theorem listMin_mem : ∀ {l : List ℚ} {m : ℚ}, listMin l = some m → m ∈ l := by
  intro l
  induction l with
  | nil => intro m hm; simp [listMin] at hm
  | cons x xs ih =>
    intro m hm
    cases hmin : listMin xs with
    | none =>
      simp only [listMin, hmin] at hm
      injection hm with hm
      rw [← hm]
      exact List.mem_cons_self _ _
    | some m2 =>
      simp only [listMin, hmin] at hm
      by_cases hle : x ≤ m2
      · rw [if_pos hle] at hm
        injection hm with hm
        rw [← hm]
        exact List.mem_cons_self _ _
      · rw [if_neg hle] at hm
        injection hm with hm
        rw [← hm]
        exact List.mem_cons_of_mem _ (ih hmin)

theorem listMin_le : ∀ {l : List ℚ} {m : ℚ}, listMin l = some m → ∀ w ∈ l, m ≤ w := by
  intro l
  induction l with
  | nil => intro m hm; simp [listMin] at hm
  | cons x xs ih =>
    intro m hm w hw
    cases hmin : listMin xs with
    | none =>
      have hxe : xs = [] := by
        cases hx : xs with
        | nil => rfl
        | cons a r =>
          rw [hx] at hmin
          simp only [listMin] at hmin
          cases h3 : listMin r with
          | none => simp [h3] at hmin
          | some m3 => by_cases hle : a ≤ m3 <;> simp [h3, hle] at hmin
      subst hxe
      simp only [listMin] at hm
      injection hm with hm
      simp only [List.mem_singleton] at hw
      rw [← hm, hw]
    | some m2 =>
      simp only [listMin, hmin] at hm
      rcases List.mem_cons.1 hw with rfl | hmem
      · by_cases hle : w ≤ m2
        · rw [if_pos hle] at hm
          injection hm with hm
          exact le_of_eq hm.symm
        · rw [if_neg hle] at hm
          injection hm with hm
          rw [← hm]
          exact le_of_lt (lt_of_not_le hle)
      · have hm2w := ih hmin w hmem
        by_cases hle : x ≤ m2
        · rw [if_pos hle] at hm
          injection hm with hm
          rw [← hm]
          exact le_trans hle hm2w
        · rw [if_neg hle] at hm
          injection hm with hm
          rw [← hm]
          exact hm2w

theorem listMin_isSome {l : List ℚ} (hl : l ≠ []) : ∃ m, listMin l = some m := by
  cases l with
  | nil => exact absurd rfl hl
  | cons x xs =>
    cases h2 : listMin xs with
    | none => exact ⟨x, by simp [listMin, h2]⟩
    | some m2 =>
      by_cases hle : x ≤ m2
      · exact ⟨x, by simp [listMin, h2, hle]⟩
      · exact ⟨m2, by simp [listMin, h2, hle]⟩

theorem minEdge_le {g : Graph ν} {u t : ν} {w : ℚ} (he : (w, t) ∈ neighbors g u) :
    ∃ wm, minEdge g u t = some wm ∧ wm ≤ w ∧ (wm, t) ∈ neighbors g u := by
  have hwl : w ∈ ((neighbors g u).filter (fun e => decide (e.2 = t))).map Prod.fst := by
    rw [List.mem_map]
    exact ⟨(w, t), List.mem_filter.2 ⟨he, by simp⟩, rfl⟩
  obtain ⟨m, hm⟩ := listMin_isSome
    (l := ((neighbors g u).filter (fun e => decide (e.2 = t))).map Prod.fst)
    (by
      intro hemp
      rw [hemp] at hwl
      simp at hwl)
  refine ⟨m, hm, listMin_le hm w hwl, ?_⟩
  have hmm := listMin_mem hm
  rw [List.mem_map] at hmm
  obtain ⟨e, hef, hee⟩ := hmm
  rw [List.mem_filter] at hef
  have he2 : e.2 = t := by
    have := hef.2
    simpa using this
  have : e = (m, t) := by
    obtain ⟨e1, e2⟩ := e
    simp only at hee he2
    rw [hee, he2]
  rw [← this]
  exact hef.1


theorem walk_of_ccl {cf : List (ν × ν)} {s : ν} :
    ∀ {v : ν} {l : List ν}, Ccl cf s v l →
    ∀ (fuel : Nat) (acc : List ν), l.length ≤ fuel →
    walkBack cf s fuel v acc = some (l.reverse ++ acc) := by
  intro v l hccl
  induction hccl with
  | base =>
    intro fuel acc hfuel
    cases fuel with
    | zero => simp at hfuel
    | succ f2 =>
      rw [walkBack, if_pos rfl]
      simp
  | @step v2 u2 l2 hne hlink hrest ih =>
    intro fuel acc hfuel
    cases fuel with
    | zero => simp at hfuel
    | succ f2 =>
      rw [walkBack, if_neg hne]
      simp only [hlink]
      have hlen : l2.length ≤ f2 := by
        simp only [List.length_cons] at hfuel
        omega
      rw [ih f2 (v2 :: acc) hlen]
      simp

theorem ccl_sub {cf : List (ν × ν)} {s : ν} :
    ∀ {u : ν} {l : List ν}, Ccl cf s u l →
    ∀ v ∈ l, ∃ l2, Ccl cf s v l2 ∧ l2.Sublist l := by
  intro u l hccl
  induction hccl with
  | base =>
    intro v hv
    simp only [List.mem_singleton] at hv
    subst hv
    exact ⟨[v], Ccl.base, List.Sublist.refl _⟩
  | @step v2 u2 l2 hne hlink hrest ih =>
    intro v hv
    rcases List.mem_cons.1 hv with rfl | hmem
    · exact ⟨v :: l2, Ccl.step hne hlink hrest, List.Sublist.refl _⟩
    · obtain ⟨l3, hl3, hsub⟩ := ih v hmem
      exact ⟨l3, hl3, hsub.trans (List.sublist_cons_self _ _)⟩

theorem cfreaches_to_ccl {cf : List (ν × ν)} {s : ν} (hs : alookup cf s = none) :
    ∀ {v : ν}, CfReaches cf [s] v → ∃ l, Ccl cf s v l ∧ l.Nodup := by
  intro v hr
  induction hr with
  | base hm =>
    rw [List.mem_singleton] at hm
    rw [hm]
    exact ⟨[s], Ccl.base, List.nodup_singleton s⟩
  | @step v2 u2 hlink hreach ih =>
    have hvs : v2 ≠ s := by
      intro hvse
      rw [hvse, hs] at hlink
      exact Option.noConfusion hlink
    obtain ⟨lu, hlu, hndu⟩ := ih
    by_cases hvm : v2 ∈ lu
    · obtain ⟨l2, hl2, hsub⟩ := ccl_sub hlu v2 hvm
      exact ⟨l2, hl2, hndu.sublist hsub⟩
    · exact ⟨v2 :: lu, Ccl.step hvs hlink hlu, List.nodup_cons.2 ⟨hvm, hndu⟩⟩

theorem ccl_keys {cf : List (ν × ν)} {s : ν} :
    ∀ {u : ν} {l : List ν}, Ccl cf s u l → ∀ x ∈ l, x = s ∨ x ∈ cf.map Prod.fst := by
  intro u l hccl
  induction hccl with
  | base =>
    intro x hx
    simp only [List.mem_singleton] at hx
    exact Or.inl hx
  | @step v2 u2 l2 hne hlink hrest ih =>
    intro x hx
    rcases List.mem_cons.1 hx with rfl | hmem
    · exact Or.inr (alookup_some_mem_keys hlink)
    · exact ih x hmem

theorem ccl_len {cf : List (ν × ν)} {s : ν} {u : ν} {l : List ν}
    (hccl : Ccl cf s u l) (hnd : l.Nodup) : l.length ≤ cf.length + 1 := by
  have hsub : ∀ x ∈ l, x ∈ s :: cf.map Prod.fst := by
    intro x hx
    rcases ccl_keys hccl x hx with h1 | h2
    · rw [h1]
      exact List.mem_cons_self _ _
    · exact List.mem_cons_of_mem _ h2
  have := nodup_sub_length hnd hsub
  simp only [List.length_cons, List.length_map] at this
  omega

theorem ccl_shape {cf : List (ν × ν)} {s : ν} {u : ν} {l : List ν}
    (hccl : Ccl cf s u l) : ∃ rest, l = u :: rest := by
  cases hccl with
  | base => exact ⟨[], rfl⟩
  | step hne hlink hrest => exact ⟨_, rfl⟩

theorem reconstruct_of_ccl {cf : List (ν × ν)} {s t : ν} {l : List ν}
    (hccl : Ccl cf s t l) (hnd : l.Nodup) (hkey : (alookup cf t).isSome) :
    reconstruct_path cf s t = some l.reverse := by
  unfold reconstruct_path
  rw [if_neg (by
    intro hnone
    rw [Option.isNone_iff_eq_none] at hnone
    rw [hnone] at hkey
    simp at hkey)]
  have hlen := ccl_len hccl hnd
  have := walk_of_ccl hccl (cf.length + 1) [] hlen
  rw [this]
  simp

theorem pathCost_cons2 {g : Graph ν} (a b : ν) (rest : List ν) :
    pathCost g (a :: b :: rest) =
      match minEdge g a b, pathCost g (b :: rest) with
      | some w, some c => some (w + c)
      | _, _ => none := rfl

theorem pathCost_snoc {g : Graph ν} :
    ∀ (xs : List ν) (x b : ν),
    pathCost g (xs ++ [x, b]) =
      match pathCost g (xs ++ [x]), minEdge g x b with
      | some c, some w => some (c + w)
      | _, _ => none := by
  intro xs
  induction xs with
  | nil =>
    intro x b
    cases h2 : minEdge g x b with
    | none => simp [pathCost, h2]
    | some w => simp [pathCost, h2]
  | cons a rest ih =>
    intro x b
    cases rest with
    | nil =>
      cases h1 : minEdge g a x with
      | none =>
        cases h2 : minEdge g x b with
        | none => simp [pathCost, h1, h2]
        | some w => simp [pathCost, h1, h2]
      | some w1 =>
        cases h2 : minEdge g x b with
        | none => simp [pathCost, h1, h2]
        | some w =>
          simp [pathCost, h1, h2]
    | cons r0 rtail =>
      have ih2 := ih x b
      simp only [List.cons_append] at ih2 ⊢
      rw [pathCost_cons2 a r0 (rtail ++ [x, b]), pathCost_cons2 a r0 (rtail ++ [x]), ih2]
      cases hm : minEdge g a r0 with
      | none => simp
      | some w1 =>
        cases hp : pathCost g (r0 :: (rtail ++ [x])) with
        | none => simp
        | some c =>
          cases he : minEdge g x b with
          | none => simp
          | some w =>
            simp
            ring

theorem ccl_cost {g : Graph ν} {h : ν → ℚ} {seeds : List ν} {sk : Option ν} {σ : DState ν}
    (hg : NonnegWeights g) (hI : Inv g h seeds sk [] σ) {s : ν} (hs : s ∈ seeds) :
    ∀ {t : ν} {l : List ν}, Ccl σ.came_from s t l →
    ∃ W dt, pathCost g l.reverse = some W ∧ alookup σ.dist t = some dt ∧ W ≤ dt ∧
      ChainW g s t W := by
  intro t l hccl
  induction hccl with
  | base =>
    refine ⟨0, 0, by simp [pathCost], (hI.seed0 s hs).1, le_refl 0, ⟨[], ChainL.nil s⟩⟩
  | @step v2 u2 l2 hne hlink hrest ih =>
    obtain ⟨W, du2, hcost, hdu2, hWle, hchain⟩ := ih
    obtain ⟨w, dv2, du3, hedge, hdv2, hdu3, hle3⟩ := hI.cfEdge v2 u2 hlink
    rw [hdu2] at hdu3
    injection hdu3 with hdu3
    obtain ⟨wm, hwm, hwmle, hwmedge⟩ := minEdge_le hedge
    obtain ⟨restu, hresteq⟩ := ccl_shape hrest
    refine ⟨W + wm, dv2, ?_, hdv2, ?_, ?_⟩
    · have hrev : (v2 :: l2).reverse = restu.reverse ++ [u2, v2] := by
        rw [hresteq]
        simp
      rw [hrev, pathCost_snoc]
      have hWc : pathCost g (restu.reverse ++ [u2]) = some W := by
        have hrev2 : l2.reverse = restu.reverse ++ [u2] := by
          rw [hresteq]
          simp
        rw [← hrev2]
        exact hcost
      rw [hWc, hwm]
    · linarith
    · obtain ⟨lc, hlc⟩ := hchain
      refine ⟨lc ++ [v2], ?_⟩
      have := hlc.append (ChainL.cons hwmedge (ChainL.nil v2))
      simpa using this

theorem ccl_split {cf : List (ν × ν)} {s : ν} :
    ∀ {u : ν} {l : List ν}, Ccl cf s u l → ∃ l0, l = l0 ++ [s] := by
  intro u l hccl
  induction hccl with
  | base => exact ⟨[], rfl⟩
  | @step v2 u2 l2 hne hlink hrest ih =>
    obtain ⟨l0, hl0⟩ := ih
    exact ⟨v2 :: l0, by rw [hl0]; rfl⟩

theorem chainL_start {g : Graph ν} {x : ν} {l : List ν} {y : ν} {c : ℚ}
    (h : ChainL g x l y c) : x = y ∨ ∃ w v, (w, v) ∈ neighbors g x := by
  cases h with
  | nil => exact Or.inl rfl
  | cons he hrest => exact Or.inr ⟨_, _, he⟩

theorem nonneg_of_entries (g : Graph ν) (hg : ∀ p ∈ g, ∀ e ∈ p.2, 0 ≤ e.1) :
    NonnegWeights g := by
  intro u w v h
  unfold neighbors at h
  cases hl : alookup g u with
  | none =>
    rw [hl] at h
    simp at h
  | some l =>
    rw [hl] at h
    simp only [Option.getD_some] at h
    exact hg (u, l) (alookup_some_mem hl) (w, v) h

theorem final_entry_settled {g : Graph ν} {h : ν → ℚ} {seeds : List ν} {sk : Option ν}
    {σ : DState ν} (hI : Inv g h seeds sk [] σ) (hq : σ.queue = [])
    {v : ν} {dv : ℚ} (hv : alookup σ.dist v = some dv) : (v, dv) ∈ σ.settled := by
  rcases hI.entryS v dv hv with hqm | hs | hx
  · rw [hq] at hqm
    simp at hqm
  · exact hs
  · simp at hx

theorem settled_exact {g : Graph ν} {h : ν → ℚ} {seeds : List ν} {sk : Option ν}
    {A : ν → Prop} {σ : DState ν} (hI : Inv g h seeds sk [] σ)
    (hLB : SettledLB g seeds A σ) {v : ν} {dv : ℚ} (hA : A v)
    (hv : alookup σ.dist v = some dv) (hmem : (v, dv) ∈ σ.settled) :
    IsMinDistM g seeds v dv :=
  ⟨hI.sound v dv hv, fun t ht c hc => hLB v dv hA hmem t ht c hc⟩

theorem chain_closed {g : Graph ν} {h : ν → ℚ} {seeds : List ν} {sk : Option ν}
    {σ : DState ν} (hI : Inv g h seeds sk [] σ) (hq : σ.queue = []) :
    ∀ {x : ν} {l : List ν} {y : ν} {c : ℚ}, ChainL g x l y c →
    (alookup σ.dist x).isSome →
    (alookup σ.dist y).isSome ∨ ∃ u, sk = some u ∧ (alookup σ.dist u).isSome := by
  intro x l y c hch
  induction hch with
  | nil v =>
    intro hx
    exact Or.inl hx
  | @cons x1 w v1 l1 t c1 he hrest ih =>
    intro hx
    obtain ⟨dx, hdx⟩ := Option.isSome_iff_exists.1 hx
    by_cases hsk : sk = some x1
    · exact Or.inr ⟨x1, hsk, hx⟩
    · have hset := final_entry_settled hI hq hdx
      obtain ⟨dv1, hdv1, hlev⟩ := hI.relaxedS x1 dx hset hsk w v1 he
      exact ih (by rw [hdv1]; rfl)

theorem run_none_final {g : Graph ν} {h : ν → ℚ} {seeds : List ν} {A : ν → Prop}
    (hg : NonnegWeights g) (hA : ∀ v, A v → GoodH g h v) (hnd : seeds.Nodup) :
    Inv g h seeds none [] (runLoop g h none seeds) ∧
    SettledLB g seeds A (runLoop g h none seeds) ∧
    (runLoop g h none seeds).queue = [] := by
  obtain ⟨hI, hLB, hdis⟩ := runLoop_main hg hA hnd
  refine ⟨hI, hLB, ?_⟩
  rcases hdis with hq | ⟨t, du2, hsk, hmem⟩
  · exact hq
  · exact Option.noConfusion hsk

theorem run_none_lookup_iff {g : Graph ν} {h : ν → ℚ} {seeds : List ν}
    (hg : NonnegWeights g) (hA : ∀ v, GoodH g h v) (hnd : seeds.Nodup)
    {v : ν} {d : ℚ} :
    alookup (runLoop g h none seeds).dist v = some d ↔ IsMinDistM g seeds v d := by
  obtain ⟨hI, hLB, hq⟩ :=
    run_none_final (A := fun _ => True) hg (fun v2 _ => hA v2) hnd
  constructor
  · intro hv
    exact settled_exact hI hLB trivial hv (final_entry_settled hI hq hv)
  · intro hmin
    obtain ⟨t, ht, l, hch⟩ := hmin.1
    have ht0 := (hI.seed0 t ht).1
    have hcl := chain_closed hI hq hch (by rw [ht0]; rfl)
    have hvs : (alookup (runLoop g h none seeds).dist v).isSome := by
      rcases hcl with hy | ⟨u, hu, hus⟩
      · exact hy
      · exact Option.noConfusion hu
    obtain ⟨d2, hd2⟩ := Option.isSome_iff_exists.1 hvs
    have hmin2 := settled_exact hI hLB trivial hd2 (final_entry_settled hI hq hd2)
    rw [hd2]
    exact congrArg some (IsMinDistM.unique hmin2 hmin)

theorem sink_run_min {g : Graph ν} {h : ν → ℚ} {s t : ν} (hg : NonnegWeights g)
    (hgood : GoodH g h t) (hreach : ReachesM g [s] t) :
    ∃ dt, alookup (runLoop g h (some t) [s]).dist t = some dt ∧
      IsMinDistM g [s] t dt := by
  have hnd : ([s] : List ν).Nodup := List.nodup_singleton s
  obtain ⟨hI, hLB, hdis⟩ :=
    runLoop_main (A := fun v => v = t) hg (by rintro v rfl; exact hgood) hnd
  rcases hdis with hq | ⟨t2, du2, hsk, hmem⟩
  · obtain ⟨t0, ht0, c, l, hch⟩ := hreach
    have hs0 := (hI.seed0 t0 ht0).1
    have hcl := chain_closed hI hq hch (by rw [hs0]; rfl)
    have hts : (alookup (runLoop g h (some t) [s]).dist t).isSome := by
      rcases hcl with hy | ⟨u, hu, hus⟩
      · exact hy
      · injection hu with hu
        rw [← hu] at hus
        exact hus
    obtain ⟨dt, hdt⟩ := Option.isSome_iff_exists.1 hts
    exact ⟨dt, hdt, settled_exact hI hLB rfl hdt (final_entry_settled hI hq hdt)⟩
  · injection hsk with hsk
    subst hsk
    obtain ⟨du, hdu, hdule⟩ := hI.monoS t du2 hmem
    obtain ⟨t0, ht0, hcw⟩ := hI.sound t du hdu
    have hle2 : du2 ≤ du := hLB t du2 rfl hmem t0 ht0 du hcw
    refine ⟨du, hdu, ⟨t0, ht0, hcw⟩, ?_⟩
    intro t1 ht1 c hc
    have := hLB t du2 rfl hmem t1 ht1 c hc
    linarith

theorem sink_run_result {g : Graph ν} {h : ν → ℚ} {s t : ν} (hg : NonnegWeights g)
    (hgood : GoodH g h t) (hreach : ReachesM g [s] t) :
    ∃ p dt, reconstruct_path (runLoop g h (some t) [s]).came_from s t = some p ∧
      alookup (runLoop g h (some t) [s]).dist t = some dt ∧
      pathCost g p = some dt ∧ IsMinDistM g [s] t dt := by
  obtain ⟨dt, hdt, hmin⟩ := sink_run_min hg hgood hreach
  have hnd : ([s] : List ν).Nodup := List.nodup_singleton s
  obtain ⟨hI, hLB, hdis⟩ :=
    runLoop_main (A := fun v => v = t) hg (by rintro v rfl; exact hgood) hnd
  have hcfs : alookup (runLoop g h (some t) [s]).came_from s = none :=
    (hI.seed0 s (by simp)).2
  by_cases hts : t = s
  · refine ⟨[], dt, ?_, hdt, ?_, hmin⟩
    · have hguard : (alookup (runLoop g h (some t) [s]).came_from t).isNone = true := by
        nth_rewrite 2 [hts]
        rw [hcfs]
        rfl
      unfold reconstruct_path
      rw [if_pos hguard]
    · have h1 : dt ≤ 0 :=
        hmin.2 s (by simp) 0 (by rw [hts]; exact ⟨[], ChainL.nil s⟩)
      have h2 : 0 ≤ dt := by
        obtain ⟨t0, ht0, hcw⟩ := hmin.1
        exact chainW_nonneg hg hcw
      have h0 : dt = 0 := le_antisymm h1 h2
      rw [h0]
      rfl
  · have hgr : CfReaches (runLoop g h (some t) [s]).came_from [s] t :=
      hI.grounded t (by rw [hdt]; rfl)
    obtain ⟨l, hccl, hndl⟩ := cfreaches_to_ccl hcfs hgr
    have hkey : (alookup (runLoop g h (some t) [s]).came_from t).isSome := by
      cases hccl with
      | base => exact absurd rfl hts
      | step hne hlink hrest =>
        rw [hlink]
        rfl
    have hrec := reconstruct_of_ccl hccl hndl hkey
    obtain ⟨W, dt2, hcost, hdt2, hWle, hcw⟩ := ccl_cost hg hI (by simp) hccl
    rw [hdt] at hdt2
    injection hdt2 with hdt2
    rw [← hdt2] at hWle
    have hge : dt ≤ W := hmin.2 s (by simp) W hcw
    have hWeq : W = dt := le_antisymm hWle hge
    refine ⟨l.reverse, dt, hrec, hdt, ?_, hmin⟩
    rw [← hWeq]
    exact hcost

theorem predChain_shift {cf : List (ν × ν)} {t prev : ν}
    (h : alookup cf t = some prev) :
    ∀ k, predChain cf prev k = predChain cf t (k + 1) := by
  intro k
  induction k with
  | zero => simp [predChain, h]
  | succ k2 ih =>
    show (predChain cf prev k2).bind (alookup cf) = (predChain cf t (k2 + 1)).bind (alookup cf)
    rw [ih]

theorem walkBack_avoid {cf : List (ν × ν)} {s : ν} :
    ∀ (fuel : Nat) (t : ν) (acc : List ν), (∀ k, predChain cf t k ≠ some s) →
    walkBack cf s fuel t acc = none := by
  intro fuel
  induction fuel with
  | zero =>
    intro t acc hnr
    rfl
  | succ f2 ih =>
    intro t acc hnr
    have hts : t ≠ s := by
      intro he
      exact hnr 0 (by rw [he]; rfl)
    rw [walkBack, if_neg hts]
    cases hl : alookup cf t with
    | none => rfl
    | some prev =>
      exact ih prev (t :: acc) (fun k => by rw [predChain_shift hl k]; exact hnr (k + 1))

theorem cycle01_predChain :
    ∀ k, predChain [((0 : ℕ), (1 : ℕ)), (1, 0)] 0 k = some 0 ∨
      predChain [((0 : ℕ), (1 : ℕ)), (1, 0)] 0 k = some 1 := by
  intro k
  induction k with
  | zero => exact Or.inl rfl
  | succ k2 ih =>
    rcases ih with h | h
    · right
      show (predChain [((0 : ℕ), (1 : ℕ)), (1, 0)] 0 k2).bind _ = _
      rw [h]
      rfl
    · left
      show (predChain [((0 : ℕ), (1 : ℕ)), (1, 0)] 0 k2).bind _ = _
      rw [h]
      rfl

theorem alookup_map_self {β : Type} :
    ∀ (l : List ν) (f : ν → β) (v : ν),
    alookup (l.map (fun x => (x, f x))) v = if v ∈ l then some (f v) else none := by
  intro l
  induction l with
  | nil =>
    intro f v
    simp [alookup]
  | cons a l2 ih =>
    intro f v
    by_cases hva : v = a
    · subst hva
      simp [alookup, List.map]
    · simp only [List.map, alookup, List.mem_cons]
      rw [if_neg hva, ih]
      simp [hva]

theorem rev_neighbors_mem {g : Graph ν} {v : ν} (hv : v ∈ universeList g []) :
    neighbors (reverseGraph g) v =
      (g.map Prod.fst).dedup.flatMap (fun u =>
        ((neighbors g u).filter (fun e => decide (e.2 = v))).map (fun e => (e.1, u))) := by
  unfold neighbors reverseGraph
  rw [alookup_map_self, if_pos hv]
  rfl

theorem rev_neighbors_nomem {g : Graph ν} {v : ν} (hv : ¬ v ∈ universeList g []) :
    neighbors (reverseGraph g) v = [] := by
  unfold neighbors reverseGraph
  rw [alookup_map_self, if_neg hv]
  rfl

theorem rev_edge_mem {g : Graph ν} {v u : ν} {w : ℚ}
    (h : (w, u) ∈ neighbors (reverseGraph g) v) : (w, v) ∈ neighbors g u := by
  by_cases hv : v ∈ universeList g []
  · rw [rev_neighbors_mem hv] at h
    obtain ⟨u2, hu2, hm⟩ := List.mem_flatMap.1 h
    obtain ⟨⟨w0, v0⟩, hmf, heq⟩ := List.mem_map.1 hm
    injection heq with hw hu
    have hmem := List.mem_filter.1 hmf
    have hv0 : v0 = v := by simpa using hmem.2
    rw [← hw, ← hu, ← hv0]
    exact hmem.1
  · rw [rev_neighbors_nomem hv] at h
    simp at h

theorem rev_edge_back {g : Graph ν} {u : ν} {w : ℚ} {v : ν}
    (h : (w, v) ∈ neighbors g u) : (w, u) ∈ neighbors (reverseGraph g) v := by
  have hv : v ∈ universeList g [] := target_mem_universe [] h
  have hukey : u ∈ (g.map Prod.fst).dedup := by
    rw [List.mem_dedup]
    unfold neighbors at h
    cases hl : alookup g u with
    | none =>
      rw [hl] at h
      simp at h
    | some l => exact alookup_some_mem_keys hl
  rw [rev_neighbors_mem hv]
  refine List.mem_flatMap.2 ⟨u, hukey, ?_⟩
  refine List.mem_map.2 ⟨(w, v), ?_, rfl⟩
  exact List.mem_filter.2 ⟨h, by simp⟩

theorem rev_edge_iff {g : Graph ν} (u : ν) (w : ℚ) (v : ν) :
    (w, v) ∈ neighbors g u ↔ (w, u) ∈ neighbors (reverseGraph g) v :=
  ⟨rev_edge_back, rev_edge_mem⟩

theorem nonneg_reverse {g : Graph ν} (hg : NonnegWeights g) :
    NonnegWeights (reverseGraph g) := by
  intro u w v h
  exact hg v w u (rev_edge_mem h)

theorem alookup_lift :
    ∀ (g2 : Graph ν) (a : ν),
    alookup (liftGraph g2) (some a) =
      (alookup g2 a).map (fun l => l.map (fun e => (e.1, some e.2))) := by
  intro g2
  induction g2 with
  | nil =>
    intro a
    simp [liftGraph, alookup]
  | cons p rest ih =>
    intro a
    simp only [liftGraph, List.map, alookup]
    by_cases hap : a = p.1
    · rw [if_pos (by rw [hap]), if_pos hap]
      rfl
    · rw [if_neg (by simpa using hap), if_neg hap]
      exact ih a

theorem neighbors_virt_none {g2 : Graph ν} {ts : List ν} :
    neighbors (virtualGraph g2 ts) none = ts.map (fun t => ((0 : ℚ), some t)) := rfl

theorem neighbors_virt_some {g2 : Graph ν} {ts : List ν} (a : ν) :
    neighbors (virtualGraph g2 ts) (some a) =
      (neighbors g2 a).map (fun e => (e.1, some e.2)) := by
  show (alookup ((none, ts.map (fun t => ((0 : ℚ), some t))) :: liftGraph g2) (some a)).getD [] = _
  simp only [alookup]
  rw [if_neg (by simp), alookup_lift]
  cases halk : alookup g2 a with
  | none => simp [neighbors, halk]
  | some l => simp [neighbors, halk]

theorem virt_chain_up {g2 : Graph ν} {ts : List ν} :
    ∀ {a : ν} {l : List ν} {b : ν} {c : ℚ}, ChainL g2 a l b c →
    ChainL (virtualGraph g2 ts) (some a) (l.map some) (some b) c := by
  intro a l b c hch
  induction hch with
  | nil v => exact ChainL.nil (some v)
  | @cons u w v l2 t c2 he hrest ih =>
    exact ChainL.cons
      (by rw [neighbors_virt_some]; exact List.mem_map.2 ⟨(w, v), he, rfl⟩) ih

theorem virt_chain_down {g2 : Graph ν} {ts : List ν} :
    ∀ {oa : Option ν} {l : List (Option ν)} {ob : Option ν} {c : ℚ},
    ChainL (virtualGraph g2 ts) oa l ob c → ∀ a, oa = some a →
    ∃ b, ob = some b ∧ ChainW g2 a b c := by
  intro oa l ob c hch
  induction hch with
  | nil v =>
    intro a ha
    exact ⟨a, ha, [], ChainL.nil a⟩
  | @cons u w v l2 t c2 he hrest ih =>
    intro a ha
    rw [ha, neighbors_virt_some] at he
    obtain ⟨⟨w0, v0⟩, hmem, heq⟩ := List.mem_map.1 he
    injection heq with hw hv
    have hw2 : w0 = w := hw
    have hv2 : some v0 = v := hv
    subst hw2
    obtain ⟨b, hb, lw, hlw⟩ := ih v0 hv2.symm
    exact ⟨b, hb, v0 :: lw, ChainL.cons hmem hlw⟩

theorem virt_reach_iff {g2 : Graph ν} {ts : List ν} {v : ν} {c : ℚ} :
    ChainW (virtualGraph g2 ts) none (some v) c ↔ ∃ t ∈ ts, ChainW g2 t v c := by
  constructor
  · rintro ⟨l, hch⟩
    cases hch with
    | @cons u w v1 l2 t c2 he hrest =>
      rw [neighbors_virt_none] at he
      obtain ⟨t0, ht0, heq⟩ := List.mem_map.1 he
      injection heq with hw hv
      have hw2 : (0 : ℚ) = w := hw
      have hv2 : some t0 = v1 := hv
      obtain ⟨b, hb, hcw⟩ := virt_chain_down hrest t0 hv2.symm
      injection hb with hb
      rw [← hb] at hcw
      rw [← hw2, zero_add]
      exact ⟨t0, ht0, hcw⟩
  · rintro ⟨t0, ht0, lw, hlw⟩
    have he : ((0 : ℚ), some t0) ∈ neighbors (virtualGraph g2 ts) none := by
      rw [neighbors_virt_none]
      exact List.mem_map.2 ⟨t0, ht0, rfl⟩
    have hup : ChainL (virtualGraph g2 ts) (some t0) (lw.map some) (some v) c :=
      virt_chain_up hlw
    have := ChainL.cons he hup
    rw [zero_add] at this
    exact ⟨_, this⟩

theorem virt_min_iff {g2 : Graph ν} {ts : List ν} {v : ν} {d : ℚ} :
    IsMinDistM (virtualGraph g2 ts) [none] (some v) d ↔ IsMinDistM g2 ts v d := by
  constructor
  · rintro ⟨⟨t0, ht0, hcw⟩, hlb⟩
    simp only [List.mem_singleton] at ht0
    rw [ht0] at hcw
    obtain ⟨t1, ht1, hcw1⟩ := virt_reach_iff.1 hcw
    refine ⟨⟨t1, ht1, hcw1⟩, ?_⟩
    intro t2 ht2 c hc
    exact hlb none (by simp) c (virt_reach_iff.2 ⟨t2, ht2, hc⟩)
  · rintro ⟨⟨t1, ht1, hcw⟩, hlb⟩
    refine ⟨⟨none, by simp, virt_reach_iff.2 ⟨t1, ht1, hcw⟩⟩, ?_⟩
    intro t0 ht0 c hc
    simp only [List.mem_singleton] at ht0
    rw [ht0] at hc
    obtain ⟨t2, ht2, hc2⟩ := virt_reach_iff.1 hc
    exact hlb t2 ht2 c hc2

theorem nonneg_virtual {g2 : Graph ν} {ts : List ν} (hg2 : NonnegWeights g2) :
    NonnegWeights (virtualGraph g2 ts) := by
  intro u w v h
  cases u with
  | none =>
    rw [neighbors_virt_none] at h
    obtain ⟨t0, ht0, heq⟩ := List.mem_map.1 h
    injection heq with hw hv
    have hw2 : (0 : ℚ) = w := hw
    rw [← hw2]
  | some a =>
    rw [neighbors_virt_some] at h
    obtain ⟨⟨w0, v0⟩, hmem, heq⟩ := List.mem_map.1 h
    injection heq with hw hv
    have hw2 : w0 = w := hw
    rw [← hw2]
    exact hg2 a w0 v0 hmem

theorem park_formulations_agree {g : Graph ν} {parks : List ν}
    (hg : NonnegWeights g) (hnd : parks.Nodup) (v : ν) :
    alookup (park_virtual g parks).1 (some v) =
      alookup (compute_distances_to_park g parks).1 v := by
  have hgrev : NonnegWeights (reverseGraph g) := nonneg_reverse hg
  have hgv : NonnegWeights (virtualGraph (reverseGraph g) parks) := nonneg_virtual hgrev
  have e1 : (park_virtual g parks).1 =
      (runLoop (virtualGraph (reverseGraph g) parks) (fun _ => 0) none [none]).dist := rfl
  have e2 : (compute_distances_to_park g parks).1 =
      (runLoop (reverseGraph g) (fun _ => 0) none parks).dist := rfl
  rw [e1, e2]
  cases hL : alookup (runLoop (virtualGraph (reverseGraph g) parks)
      (fun _ => 0) none [none]).dist (some v) with
  | none =>
    cases hR : alookup (runLoop (reverseGraph g) (fun _ => 0) none parks).dist v with
    | none => rfl
    | some d =>
      have hminR := (run_none_lookup_iff hgrev (goodH_zero hgrev) hnd).1 hR
      have hminL : IsMinDistM (virtualGraph (reverseGraph g) parks) [none] (some v) d :=
        virt_min_iff.2 hminR
      have := (run_none_lookup_iff hgv (goodH_zero hgv)
        (List.nodup_singleton (none : Option ν))).2 hminL
      rw [hL] at this
      exact Option.noConfusion this
  | some d =>
    have hminL := (run_none_lookup_iff hgv (goodH_zero hgv)
      (List.nodup_singleton (none : Option ν))).1 hL
    have hminR : IsMinDistM (reverseGraph g) parks v d := virt_min_iff.1 hminL
    have := (run_none_lookup_iff hgrev (goodH_zero hgrev) hnd).2 hminR
    rw [this]

/-- C1: corrected concrete scenario. On the 9-node graph of the spec (A..I as
0..8), the single-sink search returns the claimed path [A, B, C, E, F, I],
but its length — and the full-run distance of I — is 15, not the 13 the spec
states. This theorem records the corrected values. -/
theorem C1_corrected_value :
    dijkstra gC1 0 8 = (some [0, 1, 2, 4, 5, 8], ((15 : ℚ) : WithTop ℚ)) ∧
    alookup (dijkstra_all gC1 0).1 8 = some (15 : ℚ) := by
  with_unfolding_all decide

/-- C1: counterexample to the spec value. Neither the single-sink length nor
the full-run distance table gives node I the spec's value 13. -/
theorem C1_refutes_thirteen :
    (dijkstra gC1 0 8).2 ≠ ((13 : ℚ) : WithTop ℚ) ∧
    alookup (dijkstra_all gC1 0).1 8 ≠ some (13 : ℚ) := by
  with_unfolding_all decide

/-- C2: for non-negative weights, at every step of the full-run relaxation
loop, when an entry is popped and accepted (a recorded distance exists and
the entry is not stale), the recorded distance of the node is the minimal
walk weight from the source, and it is never changed afterwards. -/
theorem C2_accepted_pop_exact {g : Graph ν} (hg : NonnegWeights g) (s : ν) (k : Nat)
    (p : ℚ) (u : ν) (rest : List (ℚ × ν)) (du : ℚ)
    (hpop : qpopMin (iterLoop g (fun _ => 0) none [s] k).queue = some ((p, u), rest))
    (hdu : alookup (iterLoop g (fun _ => 0) none [s] k).dist u = some du)
    (hacc : ¬ du < p) :
    IsMinDistM g [s] u du ∧
    ∀ j, alookup (iterLoop g (fun _ => 0) none [s] (k + j)).dist u = some du := by
  have hnd : ([s] : List ν).Nodup := List.nodup_singleton s
  have hA : ∀ v : ν, (fun _ : ν => True) v → GoodH g (fun _ => (0 : ℚ)) v :=
    fun v _ => goodH_zero hg v
  obtain ⟨hIk, hLBk, hm0⟩ := dloop_pre hg hA k (initState (fun _ => 0) [s])
    (init_inv hg hnd) settledLB_init
  have hacc0 : ¬ (du + (fun _ : ν => (0 : ℚ)) u < p) := by simpa using hacc
  have hlb := accept_minimal hg hIk (sinkfree_none _) hpop hdu hacc0 (goodH_zero hg u)
  have hmin : IsMinDistM g [s] u du := ⟨hIk.sound u du hdu, hlb⟩
  refine ⟨hmin, ?_⟩
  intro j
  show alookup (dloop g (fun _ => (0 : ℚ)) none (k + j)
    (initState (fun _ => 0) [s])).dist u = some du
  rw [dloop_add k j (initState (fun _ => 0) [s])]
  obtain ⟨hIj, hLBj, hmono⟩ := dloop_pre hg hA j
    (dloop g (fun _ => (0 : ℚ)) none k (initState (fun _ => 0) [s])) hIk hLBk
  obtain ⟨du2, hdu2, hle⟩ := hmono u du hdu
  obtain ⟨t0, ht0, hcw⟩ := hIj.sound u du2 hdu2
  have hge : du ≤ du2 := hmin.2 t0 ht0 du2 hcw
  rw [hdu2]
  exact congrArg some (le_antisymm hle hge)

theorem C2_witness :
    IsMinDistM [((0 : ℕ), [((1 : ℚ), 1)]), (1, [])] [0] 1 1 ∧
    alookup (iterLoop [((0 : ℕ), [((1 : ℚ), 1)]), (1, [])]
      (fun _ => 0) none [0] (1 + 3)).dist 1 = some 1 := by
  have hnn : NonnegWeights [((0 : ℕ), [((1 : ℚ), 1)]), (1, [])] :=
    nonneg_of_entries _ (by with_unfolding_all decide)
  have h2 := C2_accepted_pop_exact hnn 0 1 1 1 [] 1
    (by with_unfolding_all decide) (by with_unfolding_all decide)
    (by with_unfolding_all decide)
  exact ⟨h2.1, h2.2 3⟩

/-- C3: for non-negative weights, a reachable sink and a heuristic that is
admissible towards the sink (non-negative at the sink and never above the
weight of any walk into it), a_star and dijkstra return paths whose summed
edge weights are the same value, which both searches also report as the
returned length. -/
theorem C3_astar_equals_dijkstra {g : Graph ν} {s t : ν} {h : ν → ℚ}
    (hg : NonnegWeights g) (hreach : ReachesM g [s] t) (hadm : GoodH g h t) :
    ∃ pA pD, ∃ d : ℚ, a_star g s t h = (some pA, (d : WithTop ℚ)) ∧
      dijkstra g s t = (some pD, (d : WithTop ℚ)) ∧
      pathCost g pA = some d ∧ pathCost g pD = some d := by
  obtain ⟨pA, dA, hrecA, hdA, hcostA, hminA⟩ := sink_run_result hg hadm hreach
  obtain ⟨pD, dD, hrecD, hdD, hcostD, hminD⟩ :=
    sink_run_result hg (goodH_zero hg t) hreach
  have heq : dA = dD := IsMinDistM.unique hminA hminD
  have hA2 : a_star g s t h = (some pA, (dA : WithTop ℚ)) := by
    have hde : a_star g s t h =
        (reconstruct_path (runLoop g h (some t) [s]).came_from s t,
          match alookup (runLoop g h (some t) [s]).dist t with
          | none => (⊤ : WithTop ℚ)
          | some d => (d : WithTop ℚ)) := rfl
    rw [hde, hrecA, hdA]
  have hD2 : dijkstra g s t = (some pD, (dD : WithTop ℚ)) := by
    have hde : dijkstra g s t =
        (reconstruct_path (runLoop g (fun _ => 0) (some t) [s]).came_from s t,
          match alookup (runLoop g (fun _ => 0) (some t) [s]).dist t with
          | none => (⊤ : WithTop ℚ)
          | some d => (d : WithTop ℚ)) := rfl
    rw [hde, hrecD, hdD]
  refine ⟨pA, pD, dA, hA2, ?_, hcostA, ?_⟩
  · rw [heq]
    exact hD2
  · rw [heq]
    exact hcostD

theorem C3_witness : ∃ pA pD, ∃ d : ℚ,
    a_star [((0 : ℕ), [((1 : ℚ), 1)]), (1, [])] 0 1 (fun _ => 0) =
      (some pA, (d : WithTop ℚ)) ∧
    dijkstra [((0 : ℕ), [((1 : ℚ), 1)]), (1, [])] 0 1 = (some pD, (d : WithTop ℚ)) ∧
    pathCost [((0 : ℕ), [((1 : ℚ), 1)]), (1, [])] pA = some d ∧
    pathCost [((0 : ℕ), [((1 : ℚ), 1)]), (1, [])] pD = some d := by
  have hnn : NonnegWeights [((0 : ℕ), [((1 : ℚ), 1)]), (1, [])] :=
    nonneg_of_entries _ (by with_unfolding_all decide)
  have hreach : ReachesM [((0 : ℕ), [((1 : ℚ), 1)]), (1, [])] [0] 1 :=
    ⟨0, by decide, 1 + 0, [1],
      ChainL.cons (by with_unfolding_all decide) (ChainL.nil 1)⟩
  exact C3_astar_equals_dijkstra hnn hreach (goodH_zero hnn 1)

/-- C4: for non-negative weights and a sink unreachable from the source, the
single-sink search returns the empty path and length infinity; being a total
function into a pair of defined values, it raises nothing. -/
theorem C4_unreachable_total {g : Graph ν} {s t : ν} (hg : NonnegWeights g)
    (hur : ¬ ReachesM g [s] t) : dijkstra g s t = (some [], ⊤) := by
  obtain ⟨hI, hLB, hdis⟩ := runLoop_main (A := fun v => v = t) hg
    (by intro v hv; rw [hv]; exact goodH_zero hg t) (List.nodup_singleton s)
  have hdist : alookup (runLoop g (fun _ => 0) (some t) [s]).dist t = none := by
    cases hl : alookup (runLoop g (fun _ => 0) (some t) [s]).dist t with
    | none => rfl
    | some dt =>
      obtain ⟨t0, ht0, hcw⟩ := hI.sound t dt hl
      exact absurd ⟨t0, ht0, dt, hcw⟩ hur
  have hcf : alookup (runLoop g (fun _ => 0) (some t) [s]).came_from t = none := by
    cases hc : alookup (runLoop g (fun _ => 0) (some t) [s]).came_from t with
    | none => rfl
    | some u =>
      obtain ⟨w, dv, du2, hmem, hdv, hdu2, hle⟩ := hI.cfEdge t u hc
      rw [hdist] at hdv
      exact Option.noConfusion hdv
  have hrp : reconstruct_path (runLoop g (fun _ => 0) (some t) [s]).came_from s t =
      some [] := by
    unfold reconstruct_path
    rw [hcf]
    rfl
  have hde : dijkstra g s t =
      (reconstruct_path (runLoop g (fun _ => 0) (some t) [s]).came_from s t,
        match alookup (runLoop g (fun _ => 0) (some t) [s]).dist t with
        | none => (⊤ : WithTop ℚ)
        | some d => (d : WithTop ℚ)) := rfl
  rw [hde, hrp, hdist]

theorem C4_witness : dijkstra ([] : Graph ℕ) 0 1 = (some [], ⊤) := by
  refine C4_unreachable_total ?_ ?_
  · intro u w v h2
    exact absurd h2 (by simp [neighbors, alookup])
  · rintro ⟨t0, ht0, c, l, hch⟩
    simp only [List.mem_singleton] at ht0
    subst ht0
    rcases chainL_start hch with he | ⟨w, v, hh⟩
    · exact absurd he (by decide)
    · simp [neighbors, alookup] at hh

/-- C5: reconstruct_path returns the ordered node sequence from the source to
the sink inclusive whenever the predecessor map carries an entry for the sink
whose chain reaches the source, and returns the empty sequence (a defined
value, nothing raised) whenever the sink is absent from the map and differs
from the source. -/
theorem C5_reconstruct_contract : ∀ (cf : List (ν × ν)) (s t : ν),
    ((alookup cf t).isSome → CfReaches cf [s] t → alookup cf s = none →
      ∃ l, reconstruct_path cf s t = some l ∧ l.head? = some s ∧
        l.getLast? = some t) ∧
    ((alookup cf t).isNone → t ≠ s → reconstruct_path cf s t = some []) := by
  intro cf s t
  constructor
  · intro hkey hreach hs
    obtain ⟨l, hccl, hnd⟩ := cfreaches_to_ccl hs hreach
    refine ⟨l.reverse, reconstruct_of_ccl hccl hnd hkey, ?_, ?_⟩
    · obtain ⟨l0, hl0⟩ := ccl_split hccl
      rw [hl0]
      simp
    · obtain ⟨rest, hrest⟩ := ccl_shape hccl
      rw [List.getLast?_reverse, hrest]
      rfl
  · intro hnone hne
    unfold reconstruct_path
    rw [if_pos hnone]

theorem C5_witness :
    (∃ l, reconstruct_path [((1 : ℕ), (0 : ℕ))] 0 1 = some l ∧
      l.head? = some 0 ∧ l.getLast? = some 1) ∧
    reconstruct_path [((1 : ℕ), (0 : ℕ))] 0 2 = some [] := by
  refine ⟨(C5_reconstruct_contract [(1, 0)] 0 1).1 (by decide) ?_ (by decide),
    (C5_reconstruct_contract [(1, 0)] 0 2).2 (by decide) (by decide)⟩
  exact @CfReaches.step ℕ _ [(1, 0)] [0] 1 0 (by decide) (CfReaches.base (by decide))

/-- C6: on any predecessor map whose links never lead from the sink back to
the source — in particular a map with a cycle not through the source — the
backward walk (bounded by one step per stored link) returns the structural
error value for every fuel, and the reconstructor reports that error rather
than looping forever. -/
theorem C6_cycle_detected : ∀ (cf : List (ν × ν)) (s t : ν),
    (∀ k, predChain cf t k ≠ some s) →
    (∀ fuel acc, walkBack cf s fuel t acc = none) ∧
    ((alookup cf t).isSome → reconstruct_path cf s t = none) := by
  intro cf s t hnr
  refine ⟨fun fuel acc => walkBack_avoid fuel t acc hnr, ?_⟩
  intro hkey
  have hcond : ¬ ((alookup cf t).isNone = true) := by
    cases halk : alookup cf t with
    | none =>
      rw [halk] at hkey
      simp at hkey
    | some u => simp
  unfold reconstruct_path
  rw [if_neg hcond]
  exact walkBack_avoid _ t [] hnr

theorem C6_witness :
    walkBack [((0 : ℕ), (1 : ℕ)), (1, 0)] 5 3 0 [] = none ∧
    reconstruct_path [((0 : ℕ), (1 : ℕ)), (1, 0)] 5 0 = none := by
  have hnr : ∀ k, predChain [((0 : ℕ), (1 : ℕ)), (1, 0)] 0 k ≠ some 5 := by
    intro k
    rcases cycle01_predChain k with h2 | h2 <;> rw [h2] <;> decide
  exact ⟨(C6_cycle_detected [(0, 1), (1, 0)] 5 0 hnr).1 3 [],
    (C6_cycle_detected [(0, 1), (1, 0)] 5 0 hnr).2 (by decide)⟩

/-- C7: after a full single-source run (no sink), the returned distance table
satisfies the triangle property: for every edge (u, w, v) of the graph with u
recorded, v is recorded and distance[v] ≤ distance[u] + w. -/
theorem C7_triangle {g : Graph ν} (hg : NonnegWeights g) (s u : ν) (w : ℚ)
    (v : ν) (du : ℚ) (he : (w, v) ∈ neighbors g u)
    (hdu : alookup (dijkstra_all g s).1 u = some du) :
    ∃ dv, alookup (dijkstra_all g s).1 v = some dv ∧ dv ≤ du + w := by
  obtain ⟨hI, hLB, hq⟩ := run_none_final (A := fun _ => True) hg
    (fun v2 _ => goodH_zero hg v2) (List.nodup_singleton s)
  have hdu2 : alookup (runLoop g (fun _ => 0) none [s]).dist u = some du := hdu
  have hset := final_entry_settled hI hq hdu2
  obtain ⟨dv, hdv, hle⟩ := hI.relaxedS u du hset (by simp) w v he
  exact ⟨dv, hdv, hle⟩

theorem C7_witness :
    ∃ dv, alookup (dijkstra_all [((0 : ℕ), [((1 : ℚ), 1)]), (1, [])] 0).1 1 =
      some dv ∧ dv ≤ 0 + 1 := by
  have hnn : NonnegWeights [((0 : ℕ), [((1 : ℚ), 1)]), (1, [])] :=
    nonneg_of_entries _ (by with_unfolding_all decide)
  exact C7_triangle hnn 0 0 1 1 0 (by with_unfolding_all decide)
    (by with_unfolding_all decide)

/-- C8: for non-negative weights and a reachable sink, the single-sink search
returns a path whose consecutive edge weights sum exactly to the returned
length. -/
theorem C8_path_sum_matches_length {g : Graph ν} {s t : ν} (hg : NonnegWeights g)
    (hreach : ReachesM g [s] t) :
    ∃ p, ∃ d : ℚ, dijkstra g s t = (some p, (d : WithTop ℚ)) ∧
      pathCost g p = some d := by
  obtain ⟨p, d, hrec, hd, hcost, hmin⟩ :=
    sink_run_result hg (goodH_zero hg t) hreach
  refine ⟨p, d, ?_, hcost⟩
  have hde : dijkstra g s t =
      (reconstruct_path (runLoop g (fun _ => 0) (some t) [s]).came_from s t,
        match alookup (runLoop g (fun _ => 0) (some t) [s]).dist t with
        | none => (⊤ : WithTop ℚ)
        | some d2 => (d2 : WithTop ℚ)) := rfl
  rw [hde, hrec, hd]

theorem C8_witness : ∃ p, ∃ d : ℚ,
    dijkstra [((0 : ℕ), [((1 : ℚ), 1)]), (1, [])] 0 1 = (some p, (d : WithTop ℚ)) ∧
    pathCost [((0 : ℕ), [((1 : ℚ), 1)]), (1, [])] p = some d := by
  have hnn : NonnegWeights [((0 : ℕ), [((1 : ℚ), 1)]), (1, [])] :=
    nonneg_of_entries _ (by with_unfolding_all decide)
  have hreach : ReachesM [((0 : ℕ), [((1 : ℚ), 1)]), (1, [])] [0] 1 :=
    ⟨0, by decide, 1 + 0, [1],
      ChainL.cons (by with_unfolding_all decide) (ChainL.nil 1)⟩
  exact C8_path_sum_matches_length hnn hreach

/-- C9: on the 5-node line graph with parks {A, E}, the multi-target
computation gives node C the exact distance 2 with E as its nearest target;
the reversal inverts edge direction while reusing the original weights; and
on every graph with non-negative weights the virtual-source formulation and
the multi-source formulation assign every node identical distance values. -/
theorem C9_park_distances :
    (alookup (compute_distances_to_park gLine [0, 4]).1 2 = some 2 ∧
      (hopEnd (compute_distances_to_park gLine [0, 4]).2 10 2 = 0 ∨
       hopEnd (compute_distances_to_park gLine [0, 4]).2 10 2 = 4)) ∧
    ∀ (ν2 : Type) [DecidableEq ν2] (g : Graph ν2) (parks : List ν2),
      NonnegWeights g → parks.Nodup →
      (∀ u w v, ((w, v) ∈ neighbors g u ↔ (w, u) ∈ neighbors (reverseGraph g) v)) ∧
      ∀ v, alookup (park_virtual g parks).1 (some v) =
        alookup (compute_distances_to_park g parks).1 v := by
  constructor
  · with_unfolding_all decide
  · intro ν2 inst g parks hg hnd
    exact ⟨fun u w v => rev_edge_iff u w v,
      fun v => park_formulations_agree hg hnd v⟩

theorem C9_witness :
    alookup (park_virtual gLine [0, 4]).1 (some 2) =
      alookup (compute_distances_to_park gLine [0, 4]).1 2 := by
  have hnn : NonnegWeights gLine := nonneg_of_entries _ (by with_unfolding_all decide)
  exact (C9_park_distances.2 ℕ gLine [0, 4] hnn (by decide)).2 2

/-- C10: the emptiness guard of reconstruct_path tests only membership of the
sink in the predecessor map: when the source itself is absent (as in the empty
map), reconstruct_path(came_from, s, s) returns the empty list, not [s]. -/
theorem C10_source_guard : ∀ (cf : List (ν × ν)) (s : ν),
    alookup cf s = none → reconstruct_path cf s s = some [] := by
  intro cf s h2
  unfold reconstruct_path
  rw [h2]
  rfl

theorem C10_witness : reconstruct_path ([] : List (ℕ × ℕ)) 0 0 = some [] :=
  C10_source_guard [] 0 rfl
end SPVerify
